import Mathlib

/-!
Verification of the text-extraction-and-segmentation pipeline of the
`reader` repository (src/services/pdfService.ts and its current revision
in src/unnamed/part_000): `normalizeText`, `chunkPageText`,
`processOutline`, `parsePdf`, and the Sidebar's page-to-chunk locator.

Strings are modelled as `List Char` (one entry per Unicode scalar value;
JavaScript string lengths are UTF-16 code-unit counts, which coincide
with code-point counts on all text considered here, which lies in the
Basic Multilingual Plane).
-/

set_option maxRecDepth 10000

namespace Reader

/-- The JavaScript regex class of whitespace characters (also the set
removed by `String.prototype.trim`): tab, LF, VT, FF, CR, space, NBSP
(U+00A0), Ogham space mark (U+1680), the space range U+2000-U+200A,
line/paragraph separators U+2028/U+2029, narrow NBSP (U+202F), medium
mathematical space (U+205F), ideographic space (U+3000), and the BOM
U+FEFF. -/
def isWs (c : Char) : Bool :=
  c = ' ' || c = '\t' || c = '\n' || c = '\u000B' || c = '\u000C' || c = '\u000D' ||
  c = '\u00A0' || c = '\u1680' ||
  ('\u2000' <= c && c <= '\u200A') ||
  c = '\u2028' || c = '\u2029' || c = '\u202F' || c = '\u205F' ||
  c = '\u3000' || c = '\uFEFF'

/-- Sentence-ending punctuation used by the chunker's sentence regex. -/
def isPunct (c : Char) : Bool :=
  c = '.' || c = '!' || c = '?'

/-- The control characters stripped at the end of `normalizeText`:
all of U+0000-U+001F except LF (U+000A), plus DEL (U+007F). -/
def isStripCtrl (c : Char) : Bool :=
  (c <= '\u0009') || ('\u000B' <= c && c <= '\u001F') || c = '\u007F'

/-! ### normalizeText

Each global `.replace` in the source maps individual code points to
replacement strings, so every stage is a per-character `flatMap`. -/

/-- The ligature replacements: U+FB00-U+FB06 to their ASCII letters. -/
def ligChar (c : Char) : List Char :=
  if c = '\uFB00' then ['f', 'f']
  else if c = '\uFB01' then ['f', 'i']
  else if c = '\uFB02' then ['f', 'l']
  else if c = '\uFB03' then ['f', 'f', 'i']
  else if c = '\uFB04' then ['f', 'f', 'l']
  else if c = '\uFB05' then ['f', 't']
  else if c = '\uFB06' then ['s', 't']
  else [c]

/-- Smart single quotes U+2018, U+2019, U+201B to an apostrophe. -/
def singleQuoteChar (c : Char) : List Char :=
  if c = '\u2018' || c = '\u2019' || c = '\u201B' then ['\''] else [c]

/-- Smart double quotes U+201C, U+201D, U+201F to a straight quote. -/
def doubleQuoteChar (c : Char) : List Char :=
  if c = '\u201C' || c = '\u201D' || c = '\u201F' then ['\"'] else [c]

/-- En dash U+2013 and em dash U+2014 to an ASCII hyphen. -/
def dashChar (c : Char) : List Char :=
  if c = '\u2013' || c = '\u2014' then ['-'] else [c]

/-- Horizontal ellipsis U+2026 to three ASCII periods. -/
def ellipsisChar (c : Char) : List Char :=
  if c = '\u2026' then ['.', '.', '.'] else [c]

/-- The space-variant class U+00A0, U+1680, U+180E, U+2000-U+200B,
U+202F, U+205F, U+3000, U+FEFF to a plain ASCII space. -/
def spaceChar (c : Char) : List Char :=
  if c = '\u00A0' || c = '\u1680' || c = '\u180E' ||
     ('\u2000' <= c && c <= '\u200B') ||
     c = '\u202F' || c = '\u205F' || c = '\u3000' || c = '\uFEFF'
  then [' '] else [c]

/-- Soft hyphens U+00AD removed entirely. -/
def softHyphenChar (c : Char) : List Char :=
  if c = '\u00AD' then [] else [c]

/-- `.normalize('NFKC')`, code-point-wise.

`String.prototype.normalize` is a JavaScript built-in (external to this
repository) defined by the Unicode character database.  It is modelled
here as a per-code-point table, faithful to the full (recursive) NFKC
decomposition of every code point listed: the compatibility
decompositions of those space variants of the replacement class that
have one (U+1680, U+180E, U+200B and U+FEFF have none and take the
identity default), the Latin ligatures U+FB00-U+FB06, the ellipsis
U+2026, and the vertical/small presentation forms U+FE19, U+FE31,
U+FE32 and U+FE58, whose recursive NFKC images are `...`, U+2014,
U+2013 and U+2014 per UnicodeData.txt.  Code points outside the table -
in particular all of ASCII, the smart quotes U+2018/19/1B and
U+201C/1D/1F, the dashes U+2013/U+2014 and the soft hyphen U+00AD, all
NFKC-stable - map to themselves.

A per-code-point table cannot express the built-in's cross-character
canonical composition (e.g. `e` followed by U+0301 composes to U+00E9),
so theorems about multi-character behaviour of `normalizeText` only
quantify over strings whose replacement passes yield pure ASCII, on
which the real NFKC performs no decomposition and no composition and
agrees with this table. -/
def nfkcChar (c : Char) : List Char :=
  if c = '\u00A0' then [' ']
  else if '\u2000' <= c && c <= '\u200A' then [' ']
  else if c = '\u202F' then [' ']
  else if c = '\u205F' then [' ']
  else if c = '\u3000' then [' ']
  else if c = '\u2026' then ['.', '.', '.']
  else if c = '\uFB00' then ['f', 'f']
  else if c = '\uFB01' then ['f', 'i']
  else if c = '\uFB02' then ['f', 'l']
  else if c = '\uFB03' then ['f', 'f', 'i']
  else if c = '\uFB04' then ['f', 'f', 'l']
  else if c = '\uFB05' then ['s', 't']
  else if c = '\uFB06' then ['s', 't']
  else if c = '\uFE19' then ['.', '.', '.']
  else if c = '\uFE31' then ['\u2014']
  else if c = '\uFE32' then ['\u2013']
  else if c = '\uFE58' then ['\u2014']
  else [c]

/-- Strip control characters (keeping newlines): the final step. -/
def stripCtrl (l : List Char) : List Char :=
  l.filter (fun c => !isStripCtrl c)

/-- `normalizeText` from src/unnamed/part_000 lines 5-30: the chain of
global replacements, then NFKC, then control-character stripping. -/
def normalizeText (l : List Char) : List Char :=
  stripCtrl
    ((((((((l.flatMap ligChar).flatMap singleQuoteChar).flatMap
      doubleQuoteChar).flatMap dashChar).flatMap ellipsisChar).flatMap
      spaceChar).flatMap softHyphenChar).flatMap nfkcChar)

/-! ### chunkPageText (src/unnamed/part_000 lines 32-69)

`cleanPara` models `para.replace(/\s+/g, ' ').trim()`; `splitParas`
models `text.split(/\n\s*\n/)`; `sentMatch` models
`cleanedPara.match(/[^.!?]+[.!?]+(?=\s|$)/g)` together with the suffix
of the input left after the last match. -/

/-- Collapse every maximal run of whitespace to a single ASCII space. -/
def collapseWs : List Char → List Char
  | [] => []
  | [a] => if isWs a then [' '] else [a]
  | a :: b :: rest =>
    if isWs a then
      if isWs b then collapseWs (b :: rest)
      else ' ' :: collapseWs (b :: rest)
    else a :: collapseWs (b :: rest)

/-- `String.prototype.trim`: drop whitespace from both ends. -/
def trimWs (l : List Char) : List Char :=
  ((l.dropWhile isWs).reverse.dropWhile isWs).reverse

/-- `para.replace(/\s+/g, ' ').trim()`. -/
def cleanPara (para : List Char) : List Char :=
  trimWs (collapseWs para)

/-- The part of a whitespace run before its first newline. -/
def nlFore (l : List Char) : List Char :=
  l.takeWhile (fun c => c ≠ '\n')

/-- The part of a whitespace run after its last newline. -/
def nlAft (l : List Char) : List Char :=
  (l.reverse.takeWhile (fun c => c ≠ '\n')).reverse

/-- One pass implementing `text.split(/\n\s*\n/)`.  A separator match
starts at the first newline of a maximal whitespace run containing at
least two newlines and, because the inner run of whitespace characters
is matched greedily and then backtracks to the final required newline,
ends at the run's last newline; run characters before the first newline
stay with the preceding piece and run characters after the last newline
start the next piece.  `cur` is the piece being built, `wsBuf` the
whitespace run currently being scanned, `acc` the finished pieces. -/
def splitGo (cur wsBuf : List Char) (acc : List (List Char)) :
    List Char → List (List Char)
  | [] =>
    if 2 ≤ wsBuf.count '\n' then acc ++ [cur ++ nlFore wsBuf, nlAft wsBuf]
    else acc ++ [cur ++ wsBuf]
  | c :: rest =>
    if isWs c then splitGo cur (wsBuf ++ [c]) acc rest
    else if 2 ≤ wsBuf.count '\n' then
      splitGo (nlAft wsBuf ++ [c]) [] (acc ++ [cur ++ nlFore wsBuf]) rest
    else splitGo (cur ++ wsBuf ++ [c]) [] acc rest

/-- `text.split(/\n\s*\n/)`. -/
def splitParas (l : List Char) : List (List Char) :=
  splitGo [] [] [] l

/-- One pass implementing the sentence regex with the `g` flag: a match
is one or more non-`[.!?]` characters (`curA`), then one or more
`[.!?]` characters (`curB`), accepted when followed by a whitespace
character or the end of the string.  Because the two character classes
are disjoint the greedy engine is deterministic: a failed lookahead
(a character that is neither punctuation nor whitespace right after a
punctuation run) discards the candidate and the next attempt starts at
that character; a punctuation character with no preceding non-
punctuation character cannot start a match and is skipped.  `pending`
accumulates every character consumed since the last accepted match, so
at the end it is the suffix of the input after the last match (the
whole input when there is no match); the second component of the
result returns it. -/
def fmGo (curA curB pending : List Char) (emitted : List (List Char)) :
    List Char → List (List Char) × List Char
  | [] =>
    if curB.isEmpty then (emitted, pending)
    else (emitted ++ [curA ++ curB], [])
  | c :: rest =>
    if curB.isEmpty then
      if isPunct c then
        if curA.isEmpty then fmGo [] [] (pending ++ [c]) emitted rest
        else fmGo curA [c] (pending ++ [c]) emitted rest
      else fmGo (curA ++ [c]) [] (pending ++ [c]) emitted rest
    else
      if isPunct c then fmGo curA (curB ++ [c]) (pending ++ [c]) emitted rest
      else if isWs c then fmGo [c] [] [c] (emitted ++ [curA ++ curB]) rest
      else fmGo [c] [] (pending ++ [c]) emitted rest

/-- `cleanedPara.match(/[^.!?]+[.!?]+(?=\s|$)/g)` (first component;
`[]` models a `null` result) paired with the suffix of the input after
the last match. -/
def sentMatch (l : List Char) : List (List Char) × List Char :=
  fmGo [] [] [] [] l

/-- `cleanedPara.match(...) || [cleanedPara]`. -/
def sentencesOf (cp : List Char) : List (List Char) :=
  match (sentMatch cp).1 with
  | [] => [cp]
  | ms => ms

/-- `TextChunk` from src/types.ts. -/
structure TextChunk where
  id : Nat
  text : List Char
  pageNumber : Nat
deriving DecidableEq, Repr

def MAX_CHUNK_LENGTH : Nat := 1000

/-- One iteration of `sentences.forEach(...)` in `chunkPageText`: the
state is (chunks emitted so far, `currentSubChunk`, `idCounter`). -/
def subStep (pageNumber : Nat) (st : List TextChunk × List Char × Nat)
    (sentence : List Char) : List TextChunk × List Char × Nat :=
  if MAX_CHUNK_LENGTH < (st.2.1 ++ sentence).length then
    if st.2.1.isEmpty then (st.1, sentence, st.2.2)
    else (st.1 ++ [⟨st.2.2, trimWs st.2.1, pageNumber⟩], sentence, st.2.2 + 1)
  else (st.1, st.2.1 ++ sentence, st.2.2)

/-- One iteration of `rawParagraphs.forEach(...)`: the state is
(chunks emitted so far, `idCounter`). -/
def chunkPara (pageNumber : Nat) (st : List TextChunk × Nat)
    (para : List Char) : List TextChunk × Nat :=
  let cleanedPara := cleanPara para
  if cleanedPara.isEmpty then st
  else if cleanedPara.length ≤ MAX_CHUNK_LENGTH then
    (st.1 ++ [⟨st.2, cleanedPara, pageNumber⟩], st.2 + 1)
  else
    let r := (sentencesOf cleanedPara).foldl (subStep pageNumber) (st.1, [], st.2)
    if r.2.1.isEmpty then (r.1, r.2.2)
    else (r.1 ++ [⟨r.2.2, trimWs r.2.1, pageNumber⟩], r.2.2 + 1)

/-- `chunkPageText` from src/unnamed/part_000 lines 32-69. -/
def chunkPageText (text : List Char) (pageNumber startId : Nat) :
    List TextChunk :=
  ((splitParas text).foldl (chunkPara pageNumber) ([], startId)).1

/-- `chunks.findIndex(c => c.pageNumber >= pageNumber)` from
src/components/Sidebar.tsx (`handleChapterClick`), with the `-1`
not-found sentinel. -/
def firstChunkAtOrAfterPage (chunks : List TextChunk) (pageNumber : Nat) :
    Int :=
  match chunks.findIdx? (fun c => decide (pageNumber ≤ c.pageNumber)) with
  | some i => (i : Int)
  | none => -1









/-! ### processOutline (src/unnamed/part_000 lines 72-107)

The external PDF-access collaborator (pdf.js) is modelled as oracles:
`getDestination` and `getPageIndex` are functions that may fail
(`Except.error` models a rejected promise / thrown error).  A raw
outline node's `dest` field is `jsNull` (absent/falsy), a name string,
an array (whose elements are opaque page refs, modelled as `Nat`), or
some other truthy value. -/

inductive JsDest where
  | jsNull : JsDest
  | jsStr : List Char → JsDest
  | jsArr : List Nat → JsDest
  | jsOther : JsDest
deriving DecidableEq, Repr

/-- The destination-lookup capabilities of the external pdf object. -/
structure Pdf where
  getDestination : List Char → Except Unit JsDest
  getPageIndex : Option Nat → Except Unit Nat

/-- JavaScript truthiness of `node.dest`: `null`/`undefined` and the
empty string are falsy; arrays (even empty) and other objects are
truthy. -/
def destTruthy : JsDest → Bool
  | .jsNull => false
  | .jsStr s => !s.isEmpty
  | .jsArr _ => true
  | .jsOther => true

/-- `if (Array.isArray(dest)) { pageIndex = await pdf.getPageIndex(dest[0]); pageNumber = pageIndex + 1 }`
- `dest[0]` of an empty array is `undefined` (`none`). -/
def resolveConcrete (pdf : Pdf) : JsDest → Except Unit (Option Nat)
  | .jsArr refs =>
    match pdf.getPageIndex refs.head? with
    | .error e => .error e
    | .ok pageIndex => .ok (some (pageIndex + 1))
  | _ => .ok none

/-- The body of the per-node `try` block in `processOutline`: resolve a
string destination through `getDestination`, then an array destination
through `getPageIndex`; `.error` is a thrown lookup. -/
def tryResolve (pdf : Pdf) (d : JsDest) : Except Unit (Option Nat) :=
  if destTruthy d then
    match d with
    | .jsStr s =>
      match pdf.getDestination s with
      | .error e => .error e
      | .ok dest => resolveConcrete pdf dest
    | _ => resolveConcrete pdf d
  else .ok none

/-- The per-node `try`/`catch`: a throw anywhere in the lookup chain is
caught and leaves `pageNumber = null`. -/
def resolveDest (pdf : Pdf) (d : JsDest) : Option Nat :=
  match tryResolve pdf d with
  | .ok v => v
  | .error _ => none

inductive RawNode where
  | mk : List Char → JsDest → List RawNode → RawNode

def RawNode.titleOf : RawNode → List Char
  | .mk t _ _ => t

def RawNode.destOf : RawNode → JsDest
  | .mk _ d _ => d

def RawNode.itemsOf : RawNode → List RawNode
  | .mk _ _ items => items

/-- `PdfOutline` from src/types.ts: resolved outline node. -/
inductive OutlineNode where
  | mk : List Char → Option Nat → List OutlineNode → OutlineNode

def OutlineNode.titleOf : OutlineNode → List Char
  | .mk t _ _ => t

def OutlineNode.pageNumberOf : OutlineNode → Option Nat
  | .mk _ p _ => p

def OutlineNode.itemsOf : OutlineNode → List OutlineNode
  | .mk _ _ items => items

mutual

/-- One node of `processOutline`: resolve the destination inside the
catch boundary, then recurse on the children outside it. -/
def processNode (pdf : Pdf) : RawNode → OutlineNode
  | .mk title dest items => .mk title (resolveDest pdf dest) (processNodes pdf items)

/-- `processOutline` from src/unnamed/part_000 lines 72-107. -/
def processNodes (pdf : Pdf) : List RawNode → List OutlineNode
  | [] => []
  | n :: rest => processNode pdf n :: processNodes pdf rest

end

def processOutline (pdf : Pdf) (nodes : List RawNode) : List OutlineNode :=
  processNodes pdf nodes

mutual

def flattenNode : RawNode → List RawNode
  | .mk t d items => .mk t d items :: flattenNodes items

/-- Depth-first (preorder) flattening of a raw outline forest. -/
def flattenNodes : List RawNode → List RawNode
  | [] => []
  | n :: rest => flattenNode n ++ flattenNodes rest

end

mutual

def flattenONode : OutlineNode → List OutlineNode
  | .mk t p items => .mk t p items :: flattenONodes items

/-- Depth-first (preorder) flattening of a resolved outline forest. -/
def flattenONodes : List OutlineNode → List OutlineNode
  | [] => []
  | n :: rest => flattenONode n ++ flattenONodes rest

end

mutual

def stripNode : OutlineNode → OutlineNode
  | .mk t _ items => .mk t none (stripNodes items)

/-- Erase all page numbers, keeping the shape (titles, nesting, sibling
order) of a resolved outline forest. -/
def stripNodes : List OutlineNode → List OutlineNode
  | [] => []
  | n :: rest => stripNode n :: stripNodes rest

end

mutual

def rawShapeNode : RawNode → OutlineNode
  | .mk t _ items => .mk t none (rawShapeNodes items)

/-- The shape (titles, nesting, sibling order) of a raw outline forest,
as a resolved forest with all page numbers erased. -/
def rawShapeNodes : List RawNode → List OutlineNode
  | [] => []
  | n :: rest => rawShapeNode n :: rawShapeNodes rest

end

/-- The page numbers of a resolved forest in depth-first order. -/
def pagesOf (ns : List OutlineNode) : List (Option Nat) :=
  (flattenONodes ns).map OutlineNode.pageNumberOf

/-! ### parsePdf (src/unnamed/part_000 lines 133-219)

The document is an oracle bundle: page count, per-page text items (the
`str` of each `textContent.items` entry, in order), outline retrieval,
the destination-lookup oracles, and the metadata inputs.  Rendering the
cover thumbnail (`generateCoverImage`) draws on a canvas and never
throws (it catches internally and returns null); its result is the
`coverImage` oracle.  `getMetadata` models `pdf.getMetadata()`:
`.ok (some t)` means the call succeeded and `meta?.info?.Title` was
present and truthy with value `t`. -/

structure PdfMetadata where
  title : List Char
  coverUrl : Option (List Char)
deriving DecidableEq, Repr

structure PdfParseResult where
  chunks : List TextChunk
  outline : List OutlineNode
  metadata : PdfMetadata

structure PdfDoc where
  numPages : Nat
  pageItems : Nat → List (List Char)
  getOutline : Except Unit (Option (List RawNode))
  dests : Pdf
  fileName : List Char
  getMetadata : Except Unit (Option (List Char))
  coverImage : Option (List Char)

/-- `file.name.replace('.pdf', '')` - a string first argument replaces
only the first occurrence. -/
def stripDotPdf : List Char → List Char
  | '.' :: 'p' :: 'd' :: 'f' :: rest => rest
  | c :: rest => c :: stripDotPdf rest
  | [] => []

/-- Step 3 of `parsePdf`: metadata assembly with its `try`/`catch`
(on a throw the metadata keeps the filename-derived title and a null
cover). -/
def docMetadata (doc : PdfDoc) : PdfMetadata :=
  match doc.getMetadata with
  | .error _ => { title := stripDotPdf doc.fileName, coverUrl := none }
  | .ok info =>
    { title := match info with
        | some t => t
        | none => stripDotPdf doc.fileName,
      coverUrl := doc.coverImage }

/-- `textContent.items.map(item => item.str).join(' ')`. -/
def joinSp : List (List Char) → List Char
  | [] => []
  | [s] => s
  | s :: rest => s ++ ' ' :: joinSp rest

/-- One iteration of the page loop in `parsePdf`: extract, join,
normalize and chunk page `i`, then advance the id counter to
`last.id + 1` if the page emitted any chunks and append them. -/
def parseStep (doc : PdfDoc) (st : List TextChunk × Nat) (i : Nat) :
    List TextChunk × Nat :=
  let pageChunks := chunkPageText (normalizeText (joinSp (doc.pageItems i))) i st.2
  match pageChunks.getLast? with
  | none => st
  | some c => (st.1 ++ pageChunks, c.id + 1)

/-- `parsePdf` from src/unnamed/part_000 lines 133-219: the page loop
over pages `1..numPages`, the scanned-PDF check, outline extraction
(failures and absence give an empty outline) and metadata assembly. -/
def parsePdf (doc : PdfDoc) : Except (List Char) PdfParseResult :=
  let r := (List.range' 1 doc.numPages).foldl (parseStep doc) ([], 0)
  if r.1.isEmpty then .error ("SCANNED_PDF_DETECTED".toList)
  else
    .ok { chunks := r.1,
          outline :=
            match doc.getOutline with
            | .error _ => []
            | .ok none => []
            | .ok (some rawOutline) => processOutline doc.dests rawOutline,
          metadata := docMetadata doc }

/-! ## Helper lemmas -/

/-- `normalizeText` acts independently on each character. -/
theorem normalizeText_flatMap (l : List Char) :
    normalizeText l = l.flatMap (fun c => normalizeText [c]) := by
  unfold normalizeText stripCtrl
  simp only [List.flatMap_assoc, List.filter_flatMap, List.flatMap_cons,
    List.flatMap_nil, List.append_nil]

theorem findIdxQ_min (q : TextChunk → Bool) :
    ∀ (l : List TextChunk) (i : Nat) (h : i < l.length),
      q (l.get ⟨i, h⟩) = true →
      (∀ j, ∀ hj : j < l.length, q (l.get ⟨j, hj⟩) = true → i ≤ j) →
      l.findIdx? q = some i := by
  intro l
  induction l with
  | nil => intro i h; exact absurd h (by simp)
  | cons a t ih =>
    intro i h hq hmin
    by_cases hqa : q a = true
    · have h0 : i ≤ 0 := hmin 0 (by simp) hqa
      have h0' : i = 0 := Nat.le_zero.mp h0
      subst h0'
      simp [List.findIdx?_cons, hqa]
    · have hi0 : i ≠ 0 := by
        intro e
        subst e
        exact hqa hq
      obtain ⟨i', rfl⟩ : ∃ i', i = i' + 1 := ⟨i - 1, by omega⟩
      rw [List.findIdx?_cons]
      simp only [hqa, if_false, List.findIdx?_succ]
      have h' : i' < t.length := by simpa using h
      have hq' : q (t.get ⟨i', h'⟩) = true := hq
      have hmin' : ∀ j, ∀ hj : j < t.length, q (t.get ⟨j, hj⟩) = true → i' ≤ j := by
        intro j hj hqj
        have := hmin (j + 1) (by simpa using hj) hqj
        omega
      rw [ih i' h' hq' hmin']
      rfl

/-! ## C6: the page-to-chunk locator -/

/-- C6: `firstChunkAtOrAfterPage(chunks, p)` returns the lowest index
`i` with `chunks[i].pageNumber >= p`; it returns the sentinel `-1`
exactly when no chunk qualifies; and whenever `p` is at most the first
chunk's page number it returns `0`. -/
theorem firstChunkAtOrAfterPage_correct (chunks : List TextChunk) (p : Nat) :
    ((∀ c ∈ chunks, c.pageNumber < p) → firstChunkAtOrAfterPage chunks p = -1) ∧
    (firstChunkAtOrAfterPage chunks p = -1 → ∀ c ∈ chunks, c.pageNumber < p) ∧
    (∀ i : Nat, ∀ h : i < chunks.length,
      p ≤ (chunks.get ⟨i, h⟩).pageNumber →
      (∀ j : Nat, ∀ hj : j < chunks.length,
        p ≤ (chunks.get ⟨j, hj⟩).pageNumber → i ≤ j) →
      firstChunkAtOrAfterPage chunks p = i) ∧
    (∀ hne : chunks ≠ [], p ≤ (chunks.head hne).pageNumber →
      firstChunkAtOrAfterPage chunks p = 0) := by
  refine ⟨?_, ?_, ?_, ?_⟩
  · intro hall
    have hn : chunks.findIdx? (fun c => decide (p ≤ c.pageNumber)) = none := by
      apply List.findIdx?_eq_none_iff.mpr
      intro c hc
      simpa using Nat.not_le.mpr (hall c hc)
    simp [firstChunkAtOrAfterPage, hn]
  · intro hres c hc
    by_contra hlt
    push_neg at hlt
    have : chunks.findIdx? (fun c => decide (p ≤ c.pageNumber)) ≠ none := by
      intro hn
      have := List.findIdx?_eq_none_iff.mp hn c hc
      simp [hlt] at this
    rcases ho : chunks.findIdx? (fun c => decide (p ≤ c.pageNumber)) with _ | i
    · exact this ho
    · simp only [firstChunkAtOrAfterPage, ho] at hres
      omega
  · intro i h hi hmin
    have : chunks.findIdx? (fun c => decide (p ≤ c.pageNumber)) = some i := by
      apply findIdxQ_min
      · simpa using hi
      · intro j hj hqj
        exact hmin j hj (by simpa using hqj)
    simp [firstChunkAtOrAfterPage, this]
  · intro hne hhead
    rcases chunks with _ | ⟨a, t⟩
    · exact absurd rfl hne
    · have : (a :: t).findIdx? (fun c => decide (p ≤ c.pageNumber)) = some 0 := by
        rw [List.findIdx?_cons]
        simp [List.head] at hhead
        simp [hhead]
      simp [firstChunkAtOrAfterPage, this]

/-- Witness for C6 at a concrete chunk list. -/
theorem firstChunkAtOrAfterPage_correct_witness :
    firstChunkAtOrAfterPage [⟨0, ['a'], 3⟩, ⟨1, ['b'], 5⟩] 4 = 1 ∧
    firstChunkAtOrAfterPage [⟨0, ['a'], 3⟩, ⟨1, ['b'], 5⟩] 2 = 0 ∧
    firstChunkAtOrAfterPage [⟨0, ['a'], 3⟩, ⟨1, ['b'], 5⟩] 6 = -1 := by
  refine ⟨?_, ?_, ?_⟩
  · exact (firstChunkAtOrAfterPage_correct [⟨0, ['a'], 3⟩, ⟨1, ['b'], 5⟩] 4).2.2.1
      1 (by decide) (by decide)
      (by
        intro j hj hq
        rcases j with _ | j
        · simp [List.get] at hq
        · omega)
  · exact (firstChunkAtOrAfterPage_correct [⟨0, ['a'], 3⟩, ⟨1, ['b'], 5⟩] 2).2.2.2
      (by decide) (by decide)
  · exact (firstChunkAtOrAfterPage_correct [⟨0, ['a'], 3⟩, ⟨1, ['b'], 5⟩] 6).1
      (by decide)

/-! ## C8: the replacement table of normalizeText -/

/-- C8: `normalizeText` turns every curly/typographic single-quote
variant (U+2018/U+2019/U+201B) into `'`, every double-quote variant
(U+201C/U+201D/U+201F) into `"`, en/em dashes into `-`, the horizontal
ellipsis into `...`, every Unicode space variant of the source's class
into one ASCII space, and removes soft hyphens entirely; these
replacements happen before NFKC (witnessed by U+FE58, whose NFKC image
U+2014 survives because the dash replacement has already run) and
before the final stripping of ASCII control characters other than
newline. -/
theorem normalizeText_replacement_table :
    normalizeText ['\u2018'] = ['\''] ∧
    normalizeText ['\u2019'] = ['\''] ∧
    normalizeText ['\u201B'] = ['\''] ∧
    normalizeText ['\u201C'] = ['\"'] ∧
    normalizeText ['\u201D'] = ['\"'] ∧
    normalizeText ['\u201F'] = ['\"'] ∧
    normalizeText ['\u2013'] = ['-'] ∧
    normalizeText ['\u2014'] = ['-'] ∧
    normalizeText ['\u2026'] = ['.', '.', '.'] ∧
    (['\u00A0', '\u1680', '\u180E', '\u2000', '\u2001', '\u2002', '\u2003',
      '\u2004', '\u2005', '\u2006', '\u2007', '\u2008', '\u2009', '\u200A',
      '\u200B', '\u202F', '\u205F', '\u3000', '\uFEFF'].all
        (fun c => normalizeText [c] == [' '])) = true ∧
    normalizeText ['\u00AD'] = [] ∧
    normalizeText ['\u0007'] = [] ∧
    normalizeText ['\n'] = ['\n'] ∧
    normalizeText ['\uFE58'] = ['\u2014'] := by
  decide

/-! ## C7: normalizeText is not idempotent -/

/-- Counterexample for C7: on U+FE58 (SMALL EM DASH) `normalizeText` is
not idempotent.  The replacement passes run before NFKC, so the first
pass leaves U+FE58 untouched until NFKC maps it to U+2014, and only a
second pass replaces that em dash with `-`. -/
theorem normalizeText_not_idempotent :
    normalizeText (normalizeText ['\uFE58']) ≠ normalizeText ['\uFE58'] := by
  decide

theorem char_ne_of_big {c : Char} (h : c.toNat < 128) (x : Char)
    (hx : 128 <= x.toNat) : ¬(c = x) := by
  intro e
  subst e
  omega

theorem char_not_le_of_big {c : Char} (h : c.toNat < 128) (x : Char)
    (hx : 128 <= x.toNat) : ¬(x ≤ c) := by
  intro hle
  rw [Char.le_def] at hle
  have h2 : x.val.toNat ≤ c.val.toNat := by exact_mod_cast hle
  unfold Char.toNat at h hx
  omega

theorem flatMap_id_of_mem {f : Char → List Char} :
    ∀ (l : List Char), (∀ a ∈ l, f a = [a]) → l.flatMap f = l := by
  intro l
  induction l with
  | nil => intro _; rfl
  | cons a t ih =>
    intro h
    rw [List.flatMap_cons, h a (by simp), ih (fun b hb => h b (by simp [hb]))]
    rfl

theorem ligChar_ascii {c : Char} (h : c.toNat < 128) : ligChar c = [c] := by
  unfold ligChar
  rw [if_neg (char_ne_of_big h '\uFB00' (by decide)),
    if_neg (char_ne_of_big h '\uFB01' (by decide)),
    if_neg (char_ne_of_big h '\uFB02' (by decide)),
    if_neg (char_ne_of_big h '\uFB03' (by decide)),
    if_neg (char_ne_of_big h '\uFB04' (by decide)),
    if_neg (char_ne_of_big h '\uFB05' (by decide)),
    if_neg (char_ne_of_big h '\uFB06' (by decide))]

theorem singleQuoteChar_ascii {c : Char} (h : c.toNat < 128) :
    singleQuoteChar c = [c] := by
  unfold singleQuoteChar
  have hq : ¬((c = '\u2018' || c = '\u2019' || c = '\u201B') = true) := by
    simp only [Bool.or_eq_true, decide_eq_true_eq]
    intro hor
    rcases hor with (e | e) | e
    · exact char_ne_of_big h '\u2018' (by decide) e
    · exact char_ne_of_big h '\u2019' (by decide) e
    · exact char_ne_of_big h '\u201B' (by decide) e
  rw [if_neg hq]

theorem doubleQuoteChar_ascii {c : Char} (h : c.toNat < 128) :
    doubleQuoteChar c = [c] := by
  unfold doubleQuoteChar
  have hq : ¬((c = '\u201C' || c = '\u201D' || c = '\u201F') = true) := by
    simp only [Bool.or_eq_true, decide_eq_true_eq]
    intro hor
    rcases hor with (e | e) | e
    · exact char_ne_of_big h '\u201C' (by decide) e
    · exact char_ne_of_big h '\u201D' (by decide) e
    · exact char_ne_of_big h '\u201F' (by decide) e
  rw [if_neg hq]

theorem dashChar_ascii {c : Char} (h : c.toNat < 128) : dashChar c = [c] := by
  unfold dashChar
  have hq : ¬((c = '\u2013' || c = '\u2014') = true) := by
    simp only [Bool.or_eq_true, decide_eq_true_eq]
    intro hor
    rcases hor with e | e
    · exact char_ne_of_big h '\u2013' (by decide) e
    · exact char_ne_of_big h '\u2014' (by decide) e
  rw [if_neg hq]

theorem ellipsisChar_ascii {c : Char} (h : c.toNat < 128) :
    ellipsisChar c = [c] := by
  unfold ellipsisChar
  rw [if_neg (char_ne_of_big h '\u2026' (by decide))]

theorem spaceChar_ascii {c : Char} (h : c.toNat < 128) : spaceChar c = [c] := by
  unfold spaceChar
  have hq : ¬((c = '\u00A0' || c = '\u1680' || c = '\u180E' ||
      ('\u2000' <= c && c <= '\u200B') ||
      c = '\u202F' || c = '\u205F' || c = '\u3000' || c = '\uFEFF') = true) := by
    simp only [Bool.or_eq_true, Bool.and_eq_true, decide_eq_true_eq]
    intro hor
    rcases hor with ((((((e | e) | e) | ⟨hle, _⟩) | e) | e) | e) | e
    · exact char_ne_of_big h '\u00A0' (by decide) e
    · exact char_ne_of_big h '\u1680' (by decide) e
    · exact char_ne_of_big h '\u180E' (by decide) e
    · exact char_not_le_of_big h '\u2000' (by decide) hle
    · exact char_ne_of_big h '\u202F' (by decide) e
    · exact char_ne_of_big h '\u205F' (by decide) e
    · exact char_ne_of_big h '\u3000' (by decide) e
    · exact char_ne_of_big h '\uFEFF' (by decide) e
  rw [if_neg hq]

theorem softHyphenChar_ascii {c : Char} (h : c.toNat < 128) :
    softHyphenChar c = [c] := by
  unfold softHyphenChar
  rw [if_neg (char_ne_of_big h '\u00AD' (by decide))]

theorem nfkcChar_ascii {c : Char} (h : c.toNat < 128) : nfkcChar c = [c] := by
  unfold nfkcChar
  have hr : ¬(('\u2000' <= c && c <= '\u200A') = true) := by
    simp only [Bool.and_eq_true, decide_eq_true_eq]
    intro hand
    exact char_not_le_of_big h '\u2000' (by decide) hand.1
  rw [if_neg (char_ne_of_big h '\u00A0' (by decide)), if_neg hr,
    if_neg (char_ne_of_big h '\u202F' (by decide)),
    if_neg (char_ne_of_big h '\u205F' (by decide)),
    if_neg (char_ne_of_big h '\u3000' (by decide)),
    if_neg (char_ne_of_big h '\u2026' (by decide)),
    if_neg (char_ne_of_big h '\uFB00' (by decide)),
    if_neg (char_ne_of_big h '\uFB01' (by decide)),
    if_neg (char_ne_of_big h '\uFB02' (by decide)),
    if_neg (char_ne_of_big h '\uFB03' (by decide)),
    if_neg (char_ne_of_big h '\uFB04' (by decide)),
    if_neg (char_ne_of_big h '\uFB05' (by decide)),
    if_neg (char_ne_of_big h '\uFB06' (by decide)),
    if_neg (char_ne_of_big h '\uFE19' (by decide)),
    if_neg (char_ne_of_big h '\uFE31' (by decide)),
    if_neg (char_ne_of_big h '\uFE32' (by decide)),
    if_neg (char_ne_of_big h '\uFE58' (by decide))]

/-- On a pure-ASCII string the whole pipeline reduces to the control
strip: every replacement stage and the NFKC stage are the identity,
exactly as the real built-in behaves on ASCII (no ASCII code point has
a decomposition, and ASCII contains no combining character, so no
cross-character composition can occur either). -/
theorem normalizeText_ascii (l : List Char) (h : ∀ c ∈ l, c.toNat < 128) :
    normalizeText l = stripCtrl l := by
  unfold normalizeText
  rw [flatMap_id_of_mem l (fun a ha => ligChar_ascii (h a ha)),
    flatMap_id_of_mem l (fun a ha => singleQuoteChar_ascii (h a ha)),
    flatMap_id_of_mem l (fun a ha => doubleQuoteChar_ascii (h a ha)),
    flatMap_id_of_mem l (fun a ha => dashChar_ascii (h a ha)),
    flatMap_id_of_mem l (fun a ha => ellipsisChar_ascii (h a ha)),
    flatMap_id_of_mem l (fun a ha => spaceChar_ascii (h a ha)),
    flatMap_id_of_mem l (fun a ha => softHyphenChar_ascii (h a ha)),
    flatMap_id_of_mem l (fun a ha => nfkcChar_ascii (h a ha))]

/-- The code points the replacement passes of `normalizeText` rewrite
or delete: ligatures, smart quotes, dashes, the ellipsis, the space
variants and the soft hyphen. -/
def replacedTargets : List Char :=
  ['\uFB00', '\uFB01', '\uFB02', '\uFB03', '\uFB04', '\uFB05', '\uFB06',
   '\u2018', '\u2019', '\u201B', '\u201C', '\u201D', '\u201F',
   '\u2013', '\u2014', '\u2026',
   '\u00A0', '\u1680', '\u180E',
   '\u2000', '\u2001', '\u2002', '\u2003', '\u2004', '\u2005', '\u2006',
   '\u2007', '\u2008', '\u2009', '\u200A', '\u200B',
   '\u202F', '\u205F', '\u3000', '\uFEFF', '\u00AD']

theorem replacedTargets_out : ∀ c ∈ replacedTargets, ∀ d ∈ normalizeText [c],
    d.toNat < 128 ∧ isStripCtrl d = false := by decide

/-- C7 (amended): `normalizeText` is idempotent on every string whose
characters are ASCII or replacement targets (the ligatures, smart
quotes, dashes, ellipsis, space variants and soft hyphen the code
rewrites): the replacement passes turn such a string into pure ASCII,
on which the real NFKC - like the model - is the identity, so a second
pass changes nothing.  In general idempotence fails, because NFKC runs
after the replacements and can introduce replacement targets
(counterexample: U+FE58, whose NFKC image U+2014 only the second pass
turns into `-`). -/
theorem normalizeText_idem_of_typographic (l : List Char)
    (h : ∀ c ∈ l, c.toNat < 128 ∨ c ∈ replacedTargets) :
    normalizeText (normalizeText l) = normalizeText l := by
  have hout : ∀ d ∈ normalizeText l, d.toNat < 128 ∧ isStripCtrl d = false := by
    intro d hd
    rw [normalizeText_flatMap] at hd
    obtain ⟨c, hc, hdc⟩ := List.mem_flatMap.mp hd
    rcases h c hc with hA | hT
    · rw [normalizeText_ascii [c]
        (by intro x hx; rw [List.mem_singleton] at hx; subst hx; exact hA)] at hdc
      obtain ⟨hdm, hpred⟩ := List.mem_filter.mp hdc
      rw [List.mem_singleton] at hdm
      subst hdm
      refine ⟨hA, ?_⟩
      simpa using hpred
    · exact replacedTargets_out c hT d hdc
  rw [normalizeText_ascii (normalizeText l) (fun d hd => (hout d hd).1)]
  unfold stripCtrl
  exact List.filter_eq_self.mpr (fun d hd => by simp [(hout d hd).2])

/-- Witness for the amended C7 on a concrete typographic string. -/
theorem normalizeText_idem_of_typographic_witness :
    normalizeText (normalizeText ("He said \u201Chi\u201D\u2026 it\u2019s fine.".toList)) =
      normalizeText ("He said \u201Chi\u201D\u2026 it\u2019s fine.".toList) := by
  apply normalizeText_idem_of_typographic
  decide

/-! ## C1: scanned-PDF detection -/

theorem chunkPageText_nil (p startId : Nat) : chunkPageText [] p startId = [] := rfl

theorem parseStep_emptyPage (doc : PdfDoc) (st : List TextChunk × Nat) (i : Nat)
    (h : doc.pageItems i = []) : parseStep doc st i = st := by
  unfold parseStep
  rw [h]
  rfl

theorem foldl_parseStep_emptyPages (doc : PdfDoc) :
    ∀ (l : List Nat) (st : List TextChunk × Nat),
      (∀ i ∈ l, doc.pageItems i = []) → l.foldl (parseStep doc) st = st := by
  intro l
  induction l with
  | nil => intro st _; rfl
  | cons a t ih =>
    intro st h
    rw [List.foldl_cons, parseStep_emptyPage doc st a (h a (by simp)),
      ih st (fun i hi => h i (by simp [hi]))]

/-- C1: when every page of the document yields an empty text-run
sequence, the final chunk sequence is empty after processing all pages
and `parsePdf` fails with the distinguishable `SCANNED_PDF_DETECTED`
error instead of succeeding with an empty chunk list. -/
theorem parsePdf_scanned_error (doc : PdfDoc)
    (h : ∀ i, 1 ≤ i → i ≤ doc.numPages → doc.pageItems i = []) :
    parsePdf doc = Except.error ("SCANNED_PDF_DETECTED".toList) := by
  have hfold : (List.range' 1 doc.numPages).foldl (parseStep doc) ([], 0) = ([], 0) := by
    apply foldl_parseStep_emptyPages
    intro i hi
    rw [List.mem_range'] at hi
    obtain ⟨k, hk, rfl⟩ := hi
    exact h _ (by omega) (by omega)
  unfold parsePdf
  rw [hfold]
  rfl

/-- Witness for C1: a two-page document with no text runs at all. -/
theorem parsePdf_scanned_error_witness :
    parsePdf ⟨2, fun _ => [], Except.ok none,
        ⟨fun _ => Except.error (), fun _ => Except.error ()⟩,
        "scan.pdf".toList, Except.error (), none⟩ =
      Except.error ("SCANNED_PDF_DETECTED".toList) :=
  parsePdf_scanned_error _ (fun _ _ _ => rfl)

/-! ## Chunk-id bookkeeping (C10, C3) -/

/-- The ids of `cs` are consecutive starting at `s`. -/
def idsFrom (s : Nat) (cs : List TextChunk) : Prop :=
  cs.map (fun c => c.id) = List.range' s cs.length

/-- All chunks of `cs` carry page number `p`. -/
def pagesAt (p : Nat) (cs : List TextChunk) : Prop :=
  ∀ c ∈ cs, c.pageNumber = p

theorem idsFrom_push {s : Nat} {cs : List TextChunk} {c : TextChunk}
    (h : idsFrom s cs) (hc : c.id = s + cs.length) : idsFrom s (cs ++ [c]) := by
  unfold idsFrom at h ⊢
  rw [List.map_append, h, List.length_append, List.map_cons, List.map_nil, hc]
  have h1 : List.range' (s + cs.length) 1 = [s + cs.length] := rfl
  rw [← h1, List.range'_append_1]
  simp [Nat.add_comm]

/-- Invariant preservation through one sentence step of the chunker. -/
theorem subStep_inv (p s0 : Nat) (sent : List Char)
    (st : List TextChunk × List Char × Nat)
    (h1 : idsFrom s0 st.1) (h2 : st.2.2 = s0 + st.1.length)
    (h3 : pagesAt p st.1) :
    idsFrom s0 (subStep p st sent).1 ∧
      (subStep p st sent).2.2 = s0 + (subStep p st sent).1.length ∧
      pagesAt p (subStep p st sent).1 := by
  unfold subStep
  split
  · split
    · exact ⟨h1, h2, h3⟩
    · refine ⟨idsFrom_push h1 h2, ?_, ?_⟩
      · simp [h2]
        omega
      · intro c hc
        rcases List.mem_append.mp hc with hc | hc
        · exact h3 c hc
        · simp at hc
          rw [hc]
  · exact ⟨h1, h2, h3⟩

theorem foldl_subStep_inv (p s0 : Nat) :
    ∀ (sents : List (List Char)) (st : List TextChunk × List Char × Nat),
      idsFrom s0 st.1 → st.2.2 = s0 + st.1.length → pagesAt p st.1 →
      idsFrom s0 (sents.foldl (subStep p) st).1 ∧
        (sents.foldl (subStep p) st).2.2 =
          s0 + (sents.foldl (subStep p) st).1.length ∧
        pagesAt p (sents.foldl (subStep p) st).1 := by
  intro sents
  induction sents with
  | nil => intro st h1 h2 h3; exact ⟨h1, h2, h3⟩
  | cons a t ih =>
    intro st h1 h2 h3
    rw [List.foldl_cons]
    obtain ⟨g1, g2, g3⟩ := subStep_inv p s0 a st h1 h2 h3
    exact ih _ g1 g2 g3

/-- Invariant preservation through one paragraph of the chunker. -/
theorem chunkPara_inv (p s0 : Nat) (para : List Char) (st : List TextChunk × Nat)
    (h1 : idsFrom s0 st.1) (h2 : st.2 = s0 + st.1.length) (h3 : pagesAt p st.1) :
    idsFrom s0 (chunkPara p st para).1 ∧
      (chunkPara p st para).2 = s0 + (chunkPara p st para).1.length ∧
      pagesAt p (chunkPara p st para).1 := by
  simp only [chunkPara]
  split
  · exact ⟨h1, h2, h3⟩
  · split
    · refine ⟨idsFrom_push h1 h2, by simp [h2]; omega, ?_⟩
      intro c hc
      rcases List.mem_append.mp hc with hc | hc
      · exact h3 c hc
      · simp at hc
        rw [hc]
    · obtain ⟨g1, g2, g3⟩ :=
        foldl_subStep_inv p s0 (sentencesOf (cleanPara para)) (st.1, [], st.2) h1 h2 h3
      split
      · exact ⟨g1, g2, g3⟩
      · refine ⟨idsFrom_push g1 g2, by simp [g2]; omega, ?_⟩
        intro c hc
        rcases List.mem_append.mp hc with hc | hc
        · exact g3 c hc
        · simp at hc
          rw [hc]

theorem foldl_chunkPara_inv (p s0 : Nat) :
    ∀ (paras : List (List Char)) (st : List TextChunk × Nat),
      idsFrom s0 st.1 → st.2 = s0 + st.1.length → pagesAt p st.1 →
      idsFrom s0 (paras.foldl (chunkPara p) st).1 ∧
        (paras.foldl (chunkPara p) st).2 =
          s0 + (paras.foldl (chunkPara p) st).1.length ∧
        pagesAt p (paras.foldl (chunkPara p) st).1 := by
  intro paras
  induction paras with
  | nil => intro st h1 h2 h3; exact ⟨h1, h2, h3⟩
  | cons a t ih =>
    intro st h1 h2 h3
    rw [List.foldl_cons]
    obtain ⟨g1, g2, g3⟩ := chunkPara_inv p s0 a st h1 h2 h3
    exact ih _ g1 g2 g3

/-- The chunker assigns consecutive ids starting at `startId` and tags
every chunk with the given page number. -/
theorem chunkPageText_inv (text : List Char) (p startId : Nat) :
    idsFrom startId (chunkPageText text p startId) ∧
      pagesAt p (chunkPageText text p startId) := by
  obtain ⟨g1, _, g3⟩ :=
    foldl_chunkPara_inv p startId (splitParas text) ([], startId)
      (by unfold idsFrom; rfl) (by simp) (by intro c hc; cases hc)
  exact ⟨g1, g3⟩

theorem idsFrom_get {s : Nat} {cs : List TextChunk} (h : idsFrom s cs)
    (j : Nat) (hj : j < cs.length) : (cs.get ⟨j, hj⟩).id = s + j := by
  unfold idsFrom at h
  have hj' : j < (cs.map (fun c => c.id)).length := by simpa using hj
  have e1 : (cs.map (fun c => c.id)).get ⟨j, hj'⟩ = (cs.get ⟨j, hj⟩).id := by
    simp
  have e2 : (cs.map (fun c => c.id)).get ⟨j, hj'⟩ = s + j := by
    simp only [List.get_eq_getElem]
    simp only [h]
    simp [List.getElem_range']
  rw [← e1, e2]

theorem idsFrom_getLast? {s : Nat} {cs : List TextChunk} {c : TextChunk}
    (h : idsFrom s cs) (hc : cs.getLast? = some c) : c.id + 1 = s + cs.length := by
  have hne : cs ≠ [] := by
    intro e
    subst e
    simp at hc
  have h2 : cs.getLast? = some (cs.getLast hne) := List.getLast?_eq_getLast cs hne
  have hceq : c = cs.getLast hne := by
    rw [h2] at hc
    exact (Option.some.inj hc).symm
  have hlen : 0 < cs.length := List.length_pos.mpr hne
  rw [hceq, List.getLast_eq_get, idsFrom_get h (cs.length - 1) (by omega)]
  omega

theorem idsFrom_append {s : Nat} {xs ys : List TextChunk}
    (hx : idsFrom s xs) (hy : idsFrom (s + xs.length) ys) :
    idsFrom s (xs ++ ys) := by
  unfold idsFrom at hx hy ⊢
  rw [List.map_append, hx, hy, List.range'_append_1, List.length_append,
    Nat.add_comm ys.length xs.length]

theorem pagesAt_pairwise {p : Nat} {cs : List TextChunk} (h : pagesAt p cs) :
    cs.Pairwise (fun a b => a.pageNumber ≤ b.pageNumber) := by
  induction cs with
  | nil => exact List.Pairwise.nil
  | cons a t ih =>
    refine List.Pairwise.cons ?_ (ih (fun c hc => h c (by simp [hc])))
    intro b hb
    rw [h a (by simp), h b (by simp [hb])]

/-- The state invariant of the page loop of `parsePdf`, before
processing page `bound`. -/
def ParseInv (bound : Nat) (st : List TextChunk × Nat) : Prop :=
  idsFrom 0 st.1 ∧ st.2 = st.1.length ∧
  (∀ c ∈ st.1, 1 ≤ c.pageNumber ∧ c.pageNumber < bound) ∧
  st.1.Pairwise (fun a b => a.pageNumber ≤ b.pageNumber)

theorem parseStep_none (doc : PdfDoc) (st : List TextChunk × Nat) (i : Nat)
    (h : (chunkPageText (normalizeText (joinSp (doc.pageItems i))) i st.2).getLast? = none) :
    parseStep doc st i = st := by
  simp only [parseStep, h]

theorem parseStep_some (doc : PdfDoc) (st : List TextChunk × Nat) (i : Nat)
    (c : TextChunk)
    (h : (chunkPageText (normalizeText (joinSp (doc.pageItems i))) i st.2).getLast? = some c) :
    parseStep doc st i =
      (st.1 ++ chunkPageText (normalizeText (joinSp (doc.pageItems i))) i st.2,
        c.id + 1) := by
  simp only [parseStep, h]

theorem parseStep_inv (doc : PdfDoc) (i : Nat) (st : List TextChunk × Nat)
    (hi : 1 ≤ i) (h : ParseInv i st) : ParseInv (i + 1) (parseStep doc st i) := by
  obtain ⟨h1, h2, h3, h4⟩ := h
  obtain ⟨g1, g2⟩ := chunkPageText_inv (normalizeText (joinSp (doc.pageItems i))) i st.2
  cases hlast : (chunkPageText (normalizeText (joinSp (doc.pageItems i))) i st.2).getLast? with
  | none =>
    rw [parseStep_none doc st i hlast]
    exact ⟨h1, h2, fun c hc => ⟨(h3 c hc).1, by have := (h3 c hc).2; omega⟩, h4⟩
  | some c =>
    rw [parseStep_some doc st i c hlast]
    have g1' : idsFrom (0 + st.1.length)
        (chunkPageText (normalizeText (joinSp (doc.pageItems i))) i st.2) := by
      rw [Nat.zero_add, ← h2]
      exact g1
    refine ⟨idsFrom_append h1 g1', ?_, ?_, ?_⟩
    · dsimp only
      rw [List.length_append, ← h2]
      exact idsFrom_getLast? g1 hlast
    · intro d hd
      rcases List.mem_append.mp hd with hd | hd
      · exact ⟨(h3 d hd).1, by have := (h3 d hd).2; omega⟩
      · rw [g2 d hd]
        omega
    · refine List.pairwise_append.mpr ⟨h4, pagesAt_pairwise g2, ?_⟩
      intro a ha b hb
      rw [g2 b hb]
      exact Nat.le_of_lt (h3 a ha).2

theorem foldl_parseStep_inv (doc : PdfDoc) :
    ∀ (n s : Nat) (st : List TextChunk × Nat), 1 ≤ s → ParseInv s st →
      ParseInv (s + n) ((List.range' s n).foldl (parseStep doc) st) := by
  intro n
  induction n with
  | zero => intro s st _ h; simpa using h
  | succ n ih =>
    intro s st hs h
    rw [List.range'_succ, List.foldl_cons]
    have h2 := ih (s + 1) (parseStep doc st s) (by omega) (parseStep_inv doc s st hs h)
    have e : s + 1 + n = s + (n + 1) := by omega
    rw [e] at h2
    exact h2

theorem parsePdf_ok_chunks (doc : PdfDoc) (res : PdfParseResult)
    (h : parsePdf doc = Except.ok res) :
    res.chunks = ((List.range' 1 doc.numPages).foldl (parseStep doc) ([], 0)).1 := by
  simp only [parsePdf] at h
  split at h
  · cases h
  · rw [← (Except.ok.inj h)]

theorem parsePdf_ok_inv (doc : PdfDoc) (res : PdfParseResult)
    (h : parsePdf doc = Except.ok res) :
    idsFrom 0 res.chunks ∧ (∀ c ∈ res.chunks, 1 ≤ c.pageNumber) ∧
      res.chunks.Pairwise (fun a b => a.pageNumber ≤ b.pageNumber) := by
  have hbase : ParseInv 1 ([], 0) := by
    unfold ParseInv
    refine ⟨by unfold idsFrom; rfl, rfl, ?_, List.Pairwise.nil⟩
    intro c hc
    cases hc
  have hinv := foldl_parseStep_inv doc doc.numPages 1 ([], 0) (Nat.le_refl 1) hbase
  rw [parsePdf_ok_chunks doc res h]
  exact ⟨hinv.1, fun c hc => (hinv.2.2.1 c hc).1, hinv.2.2.2⟩

/-! ## C10: chunk ids equal array indices -/

/-- C10: in every successful `parsePdf` result each chunk's `id` equals
its array index, because the id counter starts at 0, ids are assigned
consecutively per emitted chunk, and chunks are appended in emission
order. -/
theorem parsePdf_chunk_id_eq_index (doc : PdfDoc) (res : PdfParseResult)
    (h : parsePdf doc = Except.ok res) :
    ∀ i, ∀ hi : i < res.chunks.length, (res.chunks.get ⟨i, hi⟩).id = i := by
  intro i hi
  have := idsFrom_get (parsePdf_ok_inv doc res h).1 i hi
  simpa using this

/-- Witness for C10 on a concrete one-page document. -/
theorem parsePdf_chunk_id_eq_index_witness :
    ((⟨[⟨0, "Hello there.".toList, 1⟩], [],
        ⟨['b'], none⟩⟩ : PdfParseResult).chunks.get ⟨0, by decide⟩).id = 0 :=
  parsePdf_chunk_id_eq_index
    ⟨1, fun _ => ["Hello there.".toList], Except.ok none,
      ⟨fun _ => Except.error (), fun _ => Except.error ()⟩,
      "b.pdf".toList, Except.error (), none⟩
    ⟨[⟨0, "Hello there.".toList, 1⟩], [], ⟨['b'], none⟩⟩
    (by rfl) 0 (by decide)

/-! ## C3: id monotonicity/contiguity and page monotonicity -/

/-- C3: in every successful `parsePdf` result, ids strictly increase by
exactly 1 between consecutive chunks and page numbers never decrease;
moreover the page loop's running counter becomes `(last emitted id) + 1`
after a page that emitted at least one chunk and is unchanged after a
page that emitted none. -/
theorem parsePdf_id_page_monotone (doc : PdfDoc) (res : PdfParseResult)
    (h : parsePdf doc = Except.ok res) :
    (∀ i, ∀ hi : i + 1 < res.chunks.length,
      (res.chunks.get ⟨i, Nat.lt_of_succ_lt hi⟩).id <
          (res.chunks.get ⟨i + 1, hi⟩).id ∧
        (res.chunks.get ⟨i + 1, hi⟩).id =
          (res.chunks.get ⟨i, Nat.lt_of_succ_lt hi⟩).id + 1 ∧
        (res.chunks.get ⟨i, Nat.lt_of_succ_lt hi⟩).pageNumber ≤
          (res.chunks.get ⟨i + 1, hi⟩).pageNumber) ∧
    (∀ (st : List TextChunk × Nat) (j : Nat),
      (chunkPageText (normalizeText (joinSp (doc.pageItems j))) j st.2 = [] →
        parseStep doc st j = st) ∧
      (∀ c,
        (chunkPageText (normalizeText (joinSp (doc.pageItems j))) j st.2).getLast? =
            some c →
        parseStep doc st j =
          (st.1 ++ chunkPageText (normalizeText (joinSp (doc.pageItems j))) j st.2,
            c.id + 1))) := by
  obtain ⟨hids, hpos, hpair⟩ := parsePdf_ok_inv doc res h
  constructor
  · intro i hi
    have e1 := idsFrom_get hids i (Nat.lt_of_succ_lt hi)
    have e2 := idsFrom_get hids (i + 1) hi
    refine ⟨by omega, by omega, ?_⟩
    have hp := List.pairwise_iff_getElem.mp hpair i (i + 1)
      (Nat.lt_of_succ_lt hi) hi (Nat.lt_succ_self i)
    simpa using hp
  · intro st j
    refine ⟨?_, ?_⟩
    · intro hnil
      exact parseStep_none doc st j (by rw [hnil]; rfl)
    · intro c hc
      exact parseStep_some doc st j c hc

/-- Witness for C3 on a concrete two-page document. -/
theorem parsePdf_id_page_monotone_witness :
    (((⟨[⟨0, "Hello there.".toList, 1⟩, ⟨1, "Bye now.".toList, 2⟩], [],
          ⟨['b'], none⟩⟩ : PdfParseResult).chunks.get ⟨0, by decide⟩).id <
        ((⟨[⟨0, "Hello there.".toList, 1⟩, ⟨1, "Bye now.".toList, 2⟩], [],
          ⟨['b'], none⟩⟩ : PdfParseResult).chunks.get ⟨1, by decide⟩).id) ∧
      parseStep
        ⟨2, fun i => if i = 1 then ["Hello there.".toList] else ["Bye now.".toList],
          Except.ok none, ⟨fun _ => Except.error (), fun _ => Except.error ()⟩,
          "b.pdf".toList, Except.error (), none⟩
        ([], 5) 2 = ([⟨5, "Bye now.".toList, 2⟩], 6) := by
  have hm := parsePdf_id_page_monotone
    ⟨2, fun i => if i = 1 then ["Hello there.".toList] else ["Bye now.".toList],
      Except.ok none, ⟨fun _ => Except.error (), fun _ => Except.error ()⟩,
      "b.pdf".toList, Except.error (), none⟩
    ⟨[⟨0, "Hello there.".toList, 1⟩, ⟨1, "Bye now.".toList, 2⟩], [], ⟨['b'], none⟩⟩
    (by rfl)
  refine ⟨(hm.1 0 (by decide)).1, ?_⟩
  have h2 := (hm.2 ([], 5) 2).2 ⟨5, "Bye now.".toList, 2⟩ (by rfl)
  exact h2.trans (by rfl)

/-! ## Whitespace-edge lemmas for the cleaned paragraphs -/

/-- The head of `l` (if any) is not whitespace. -/
def headNotWs (l : List Char) : Prop :=
  ∀ a, l.head? = some a → isWs a = false

/-- The last element of `l` (if any) is not whitespace. -/
def lastNotWs (l : List Char) : Prop :=
  ∀ a, l.getLast? = some a → isWs a = false

theorem headNotWs_dropWhile (l : List Char) : headNotWs (l.dropWhile isWs) := by
  intro a ha
  have h := List.head?_dropWhile_not isWs l
  rw [ha] at h
  exact h

theorem headNotWs_of_all {l : List Char} (h : ∀ c ∈ l, isWs c = false) :
    headNotWs l := by
  intro a ha
  cases l with
  | nil => cases ha
  | cons b t =>
    rw [List.head?_cons] at ha
    have hba : b = a := by injection ha
    subst hba
    exact h b (by simp)

theorem lastNotWs_of_all {l : List Char} (h : ∀ c ∈ l, isWs c = false) :
    lastNotWs l := by
  intro a ha
  exact h a (List.mem_of_getLast?_eq_some ha)

theorem trimWs_headNotWs (l : List Char) : headNotWs (trimWs l) := by
  intro a ha
  unfold trimWs at ha
  rw [List.head?_reverse] at ha
  rcases List.dropWhile_suffix (l := (l.dropWhile isWs).reverse) isWs with ⟨pre, hpre⟩
  have h2 : ((l.dropWhile isWs).reverse).getLast? = some a := by
    rw [← hpre, List.getLast?_append, ha]
    rfl
  rw [List.getLast?_reverse] at h2
  exact headNotWs_dropWhile l a h2

theorem trimWs_lastNotWs (l : List Char) : lastNotWs (trimWs l) := by
  intro a ha
  unfold trimWs at ha
  rw [List.getLast?_reverse] at ha
  exact headNotWs_dropWhile (l.dropWhile isWs).reverse a ha

theorem dropWhile_eq_self_of_headNotWs {l : List Char} (h : headNotWs l) :
    l.dropWhile isWs = l := by
  cases l with
  | nil => rfl
  | cons a t =>
    rw [List.dropWhile_cons, h a (by rw [List.head?_cons])]
    simp

theorem trimWs_eq_self {l : List Char} (h1 : headNotWs l) (h2 : lastNotWs l) :
    trimWs l = l := by
  unfold trimWs
  rw [dropWhile_eq_self_of_headNotWs h1]
  rw [dropWhile_eq_self_of_headNotWs (l := l.reverse)
    (by intro a ha; rw [List.head?_reverse] at ha; exact h2 a ha)]
  exact List.reverse_reverse l

theorem trimWs_idem (l : List Char) : trimWs (trimWs l) = trimWs l :=
  trimWs_eq_self (trimWs_headNotWs l) (trimWs_lastNotWs l)

theorem cleanPara_trimWs_eq (para : List Char) :
    trimWs (cleanPara para) = cleanPara para := by
  unfold cleanPara
  exact trimWs_idem (collapseWs para)

theorem collapseWs_eq_self {l : List Char} (h : ∀ c ∈ l, isWs c = false) :
    collapseWs l = l := by
  induction l with
  | nil => rfl
  | cons a t ih =>
    cases t with
    | nil => simp [collapseWs, h a (by simp)]
    | cons b r =>
      have ha := h a (by simp)
      simp only [collapseWs, ha]
      simp only [Bool.false_eq_true, if_false]
      rw [ih (fun c hc => h c (by simp [hc]))]

theorem cleanPara_eq_self {l : List Char} (h : ∀ c ∈ l, isWs c = false) :
    cleanPara l = l := by
  unfold cleanPara
  rw [collapseWs_eq_self h, trimWs_eq_self (headNotWs_of_all h) (lastNotWs_of_all h)]

/-! ## splitParas and sentMatch degenerate cases -/

theorem splitGo_no_newline :
    ∀ (rest cur wsBuf : List Char) (acc : List (List Char)),
      wsBuf.count '\n' = 0 → (∀ c ∈ rest, c ≠ '\n') →
      splitGo cur wsBuf acc rest = acc ++ [cur ++ wsBuf ++ rest] := by
  intro rest
  induction rest with
  | nil =>
    intro cur wsBuf acc h1 _
    simp only [splitGo, h1]
    norm_num
  | cons c rest ih =>
    intro cur wsBuf acc h1 h2
    simp only [splitGo, h1]
    by_cases hw : isWs c = true
    · have hc : (wsBuf ++ [c]).count '\n' = 0 := by
        rw [List.count_append, h1]
        have : c ≠ '\n' := h2 c (by simp)
        simp [List.count_singleton', this]
      rw [if_pos hw, ih _ _ _ hc (fun d hd => h2 d (by simp [hd]))]
      simp
    · rw [if_neg hw]
      norm_num
      rw [ih _ _ _ (by simp) (fun d hd => h2 d (by simp [hd]))]
      simp

theorem splitParas_no_newline {l : List Char} (h : ∀ c ∈ l, c ≠ '\n') :
    splitParas l = [l] := by
  unfold splitParas
  rw [splitGo_no_newline l [] [] [] (by simp) h]
  simp

theorem fmGo_no_punct :
    ∀ (l curA pending : List Char), (∀ c ∈ l, isPunct c = false) →
      fmGo curA [] pending [] l = ([], pending ++ l) := by
  intro l
  induction l with
  | nil =>
    intro curA pending _
    simp [fmGo]
  | cons c rest ih =>
    intro curA pending h
    simp only [fmGo, List.isEmpty_nil, if_true, h c (by simp)]
    simp only [Bool.false_eq_true, if_false]
    rw [ih _ _ (fun d hd => h d (by simp [hd]))]
    simp

theorem sentencesOf_no_punct {cp : List Char} (h : ∀ c ∈ cp, isPunct c = false) :
    sentencesOf cp = [cp] := by
  unfold sentencesOf sentMatch
  rw [fmGo_no_punct cp [] []  h]

/-! ## C4: a single over-length sentence is never split -/

/-- C4: a paragraph whose cleaned text is a single sentence of length
`2 * L` (no sentence-ending punctuation at all) is emitted as exactly
one chunk carrying that whole text, unsplit. -/
theorem chunkPageText_single_long_sentence (text : List Char) (p startId : Nat)
    (hnl : ∀ c ∈ text, c ≠ '\n')
    (hpunct : ∀ c ∈ cleanPara text, isPunct c = false)
    (hlen : (cleanPara text).length = 2 * MAX_CHUNK_LENGTH) :
    chunkPageText text p startId = [⟨startId, cleanPara text, p⟩] := by
  have hne : cleanPara text ≠ [] := by
    intro e
    rw [e] at hlen
    simp [MAX_CHUNK_LENGTH] at hlen
  have h1 : ¬((cleanPara text).isEmpty = true) := by
    simpa [List.isEmpty_iff] using hne
  have h2 : ¬((cleanPara text).length ≤ MAX_CHUNK_LENGTH) := by
    rw [hlen]
    simp [MAX_CHUNK_LENGTH]
  have h3 : MAX_CHUNK_LENGTH < (([] : List Char) ++ cleanPara text).length := by
    rw [List.nil_append, hlen]
    simp [MAX_CHUNK_LENGTH]
  unfold chunkPageText
  rw [splitParas_no_newline hnl]
  rw [List.foldl_cons, List.foldl_nil]
  simp only [chunkPara, sentencesOf_no_punct hpunct]
  rw [if_neg h1, if_neg h2]
  rw [List.foldl_cons, List.foldl_nil]
  simp only [subStep]
  rw [if_pos h3]
  simp only [List.isEmpty_nil, if_true]
  rw [if_neg (by simpa [List.isEmpty_iff] using hne)]
  rw [cleanPara_trimWs_eq]
  simp

/-- Witness for C4: a 2000-character paragraph with no sentence-ending
punctuation is one 2000-character chunk. -/
theorem chunkPageText_single_long_sentence_witness :
    chunkPageText (List.replicate 2000 'a') 1 0 =
      [⟨0, List.replicate 2000 'a', 1⟩] := by
  have hall : ∀ c ∈ List.replicate 2000 'a', isWs c = false := by
    intro c hc
    rw [List.eq_of_mem_replicate hc]
    rfl
  have hclean : cleanPara (List.replicate 2000 'a') = List.replicate 2000 'a' :=
    cleanPara_eq_self hall
  have h := chunkPageText_single_long_sentence (List.replicate 2000 'a') 1 0
    (by
      intro c hc
      rw [List.eq_of_mem_replicate hc]
      decide)
    (by
      rw [hclean]
      intro c hc
      rw [List.eq_of_mem_replicate hc]
      rfl)
    (by rw [hclean]; simp [MAX_CHUNK_LENGTH])
  rw [hclean] at h
  exact h

/-! ## C9: length accounting - the chunker can drop a trailing fragment -/

/-- Total length of a list of strings. -/
def sumLen (ls : List (List Char)) : Nat :=
  (ls.map List.length).sum

/-- Total text length of a list of chunks. -/
def chunkTextLen (cs : List TextChunk) : Nat :=
  (cs.map (fun c => c.text.length)).sum

theorem sumLen_append (xs ys : List (List Char)) :
    sumLen (xs ++ ys) = sumLen xs + sumLen ys := by
  unfold sumLen
  rw [List.map_append, List.sum_append]

theorem chunkTextLen_append (xs ys : List TextChunk) :
    chunkTextLen (xs ++ ys) = chunkTextLen xs + chunkTextLen ys := by
  unfold chunkTextLen
  rw [List.map_append, List.sum_append]

theorem trimWs_length_le (l : List Char) : (trimWs l).length ≤ l.length := by
  unfold trimWs
  calc ((l.dropWhile isWs).reverse.dropWhile isWs).reverse.length
      = ((l.dropWhile isWs).reverse.dropWhile isWs).length := List.length_reverse _
    _ ≤ (l.dropWhile isWs).reverse.length :=
        (List.dropWhile_sublist isWs).length_le
    _ = (l.dropWhile isWs).length := List.length_reverse _
    _ ≤ l.length := (List.dropWhile_sublist isWs).length_le

theorem sumLen_singleton (x : List Char) : sumLen [x] = x.length := by
  simp [sumLen]

/-- The matches produced by the sentence regex, together with the
unconsumed suffix after the last match, never exceed the input in total
length. -/
theorem fmGo_len :
    ∀ (rest curA curB pending : List Char) (emitted : List (List Char)),
      curA.length + curB.length ≤ pending.length →
      sumLen (fmGo curA curB pending emitted rest).1 +
          (fmGo curA curB pending emitted rest).2.length ≤
        sumLen emitted + pending.length + rest.length := by
  intro rest
  induction rest with
  | nil =>
    intro curA curB pending emitted hp
    simp only [fmGo]
    by_cases hb : curB.isEmpty = true
    · rw [if_pos hb]
      simp
    · rw [if_neg hb]
      rw [sumLen_append, sumLen_singleton]
      simp only [List.length_append, List.length_nil] at hp ⊢
      omega
  | cons c rest ih =>
    intro curA curB pending emitted hp
    simp only [fmGo]
    by_cases hb : curB.isEmpty = true
    · rw [if_pos hb]
      have hb' : curB = [] := List.isEmpty_iff.mp hb
      subst hb'
      simp only [List.length_nil, Nat.add_zero] at hp
      by_cases hpu : isPunct c = true
      · rw [if_pos hpu]
        by_cases ha : curA.isEmpty = true
        · rw [if_pos ha]
          have h := ih [] [] (pending ++ [c]) emitted (by simp)
          simp only [List.length_append, List.length_cons, List.length_nil] at h ⊢
          omega
        · rw [if_neg ha]
          have h := ih curA [c] (pending ++ [c]) emitted
            (by simp only [List.length_append, List.length_cons, List.length_nil]; omega)
          simp only [List.length_append, List.length_cons, List.length_nil] at h ⊢
          omega
      · rw [if_neg hpu]
        have h := ih (curA ++ [c]) [] (pending ++ [c]) emitted
          (by simp only [List.length_append, List.length_cons, List.length_nil]; omega)
        simp only [List.length_append, List.length_cons, List.length_nil] at h ⊢
        omega
    · rw [if_neg hb]
      by_cases hpu : isPunct c = true
      · rw [if_pos hpu]
        have h := ih curA (curB ++ [c]) (pending ++ [c]) emitted
          (by simp only [List.length_append, List.length_cons, List.length_nil]; omega)
        simp only [List.length_append, List.length_cons, List.length_nil] at h ⊢
        omega
      · rw [if_neg hpu]
        by_cases hw : isWs c = true
        · rw [if_pos hw]
          have h := ih [c] [] [c] (emitted ++ [curA ++ curB]) (by simp)
          rw [sumLen_append, sumLen_singleton] at h
          simp only [List.length_append, List.length_cons, List.length_nil] at h ⊢
          omega
        · rw [if_neg hw]
          have h := ih [c] [] (pending ++ [c]) emitted
            (by simp only [List.length_append, List.length_cons, List.length_nil]; omega)
          simp only [List.length_append, List.length_cons, List.length_nil] at h ⊢
          omega

theorem sentMatch_len (l : List Char) :
    sumLen (sentMatch l).1 + (sentMatch l).2.length ≤ l.length := by
  have := fmGo_len l [] [] [] [] (by simp)
  simpa [sentMatch, sumLen] using this

theorem subStep_len (p : Nat) (st : List TextChunk × List Char × Nat)
    (sent : List Char) :
    chunkTextLen (subStep p st sent).1 + (subStep p st sent).2.1.length ≤
      chunkTextLen st.1 + st.2.1.length + sent.length := by
  unfold subStep
  split
  · split
    · dsimp only
      omega
    · dsimp only
      rw [chunkTextLen_append]
      have h1 : chunkTextLen [⟨st.2.2, trimWs st.2.1, p⟩] = (trimWs st.2.1).length := by
        simp [chunkTextLen]
      rw [h1]
      have h2 := trimWs_length_le st.2.1
      omega
  · dsimp only
    simp only [List.length_append]
    omega

theorem foldl_subStep_len (p : Nat) :
    ∀ (sents : List (List Char)) (st : List TextChunk × List Char × Nat),
      chunkTextLen (sents.foldl (subStep p) st).1 +
          (sents.foldl (subStep p) st).2.1.length ≤
        chunkTextLen st.1 + st.2.1.length + sumLen sents := by
  intro sents
  induction sents with
  | nil =>
    intro st
    simp [sumLen]
  | cons a t ih =>
    intro st
    rw [List.foldl_cons]
    have h1 := ih (subStep p st a)
    have h2 := subStep_len p st a
    have h3 : sumLen (a :: t) = a.length + sumLen t := by
      simp [sumLen]
    omega

/-- Characters of a collapsed string are either a plain space or
non-whitespace. -/
theorem collapseWs_chars : ∀ (l : List Char), ∀ c ∈ collapseWs l,
    c = ' ' ∨ isWs c = false := by
  intro l
  induction l with
  | nil => intro c hc; cases hc
  | cons a t ih =>
    intro c hc
    cases t with
    | nil =>
      simp only [collapseWs] at hc
      by_cases hw : isWs a = true
      · rw [if_pos hw] at hc
        simp at hc
        exact Or.inl hc
      · rw [if_neg hw] at hc
        simp at hc
        subst hc
        exact Or.inr (by simpa using hw)
    | cons b r =>
      simp only [collapseWs] at hc
      by_cases hw : isWs a = true
      · rw [if_pos hw] at hc
        by_cases hwb : isWs b = true
        · rw [if_pos hwb] at hc
          exact ih c hc
        · rw [if_neg hwb] at hc
          rcases List.mem_cons.mp hc with hc | hc
          · exact Or.inl hc
          · exact ih c hc
      · rw [if_neg hw] at hc
        rcases List.mem_cons.mp hc with hc | hc
        · subst hc
          exact Or.inr (by simpa using hw)
        · exact ih c hc

theorem mem_trimWs {c : Char} {l : List Char} (h : c ∈ trimWs l) : c ∈ l := by
  unfold trimWs at h
  rw [List.mem_reverse] at h
  have h2 := (List.dropWhile_sublist isWs).mem h
  rw [List.mem_reverse] at h2
  exact (List.dropWhile_sublist isWs).mem h2

theorem cleanPara_chars {c : Char} {para : List Char} (h : c ∈ cleanPara para) :
    c = ' ' ∨ isWs c = false := by
  unfold cleanPara at h
  exact collapseWs_chars para c (mem_trimWs h)

theorem cleanPara_no_newline {para : List Char} :
    ∀ c ∈ cleanPara para, c ≠ '\n' := by
  intro c hc he
  rcases cleanPara_chars hc with h | h
  · rw [he] at h
    cases h
  · rw [he] at h
    cases h

/-- C9: for a cleaned paragraph longer than `L` that has at least one
sentence match, the emitted chunks account for at most the matched
sentences; the suffix after the last match (`(sentMatch cp).2`) is
dropped, so when it is non-empty the concatenated chunk text is
strictly shorter than the paragraph. -/
theorem chunkPageText_drops_trailing (cp : List Char) (p startId : Nat)
    (hfix : cleanPara cp = cp)
    (hlong : MAX_CHUNK_LENGTH < cp.length)
    (hm : (sentMatch cp).1 ≠ []) :
    chunkTextLen (chunkPageText cp p startId) + (sentMatch cp).2.length ≤
        cp.length ∧
      ((sentMatch cp).2 ≠ [] →
        chunkTextLen (chunkPageText cp p startId) < cp.length) := by
  have hnl : ∀ c ∈ cp, c ≠ '\n' := by
    intro c hc
    rw [← hfix] at hc
    exact cleanPara_no_newline c hc
  have hsp : splitParas cp = [cp] := splitParas_no_newline hnl
  have h1 : ¬(cp.isEmpty = true) := by
    rw [List.isEmpty_iff]
    intro e
    rw [e] at hlong
    simp [MAX_CHUNK_LENGTH] at hlong
  have h2 : ¬(cp.length ≤ MAX_CHUNK_LENGTH) := by omega
  have hsent : sentencesOf cp = (sentMatch cp).1 := by
    unfold sentencesOf
    cases hms : (sentMatch cp).1 with
    | nil => exact absurd hms hm
    | cons a t => rfl
  have hlen := sentMatch_len cp
  unfold chunkPageText
  rw [hsp, List.foldl_cons, List.foldl_nil]
  simp only [chunkPara, hfix]
  rw [if_neg h1, if_neg h2, hsent]
  have hfold := foldl_subStep_len p (sentMatch cp).1
    (([] : List TextChunk), ([] : List Char), startId)
  simp only [chunkTextLen, List.map_nil, List.sum_nil, List.length_nil,
    Nat.zero_add, Nat.add_zero] at hfold
  set R := List.foldl (subStep p)
    (([] : List TextChunk), ([] : List Char), startId) (sentMatch cp).1 with hR
  have htriv : chunkTextLen R.1 + R.2.1.length ≤ sumLen (sentMatch cp).1 := by
    unfold chunkTextLen
    omega
  split
  · dsimp only
    refine ⟨by omega, ?_⟩
    intro ht
    have := List.length_pos.mpr ht
    omega
  · dsimp only
    rw [chunkTextLen_append]
    have hsing : chunkTextLen [⟨R.2.2, trimWs R.2.1, p⟩] = (trimWs R.2.1).length := by
      simp [chunkTextLen]
    rw [hsing]
    have htr := trimWs_length_le R.2.1
    refine ⟨by omega, ?_⟩
    intro ht
    have := List.length_pos.mpr ht
    omega

/-- The concrete paragraph used by the C9 witness: three hundred
sentences followed by an unterminated fragment. -/
def trailingCp : List Char :=
  List.flatten (List.replicate 300 ("Abc. ".toList)) ++ "tail".toList

/-- Witness for C9: the fragment after the final sentence is lost. -/
theorem chunkPageText_drops_trailing_witness :
    chunkTextLen (chunkPageText trailingCp 1 0) < trailingCp.length := by
  have hfix : cleanPara trailingCp = trailingCp :=
    eq_of_beq (by rfl)
  have hlong : MAX_CHUNK_LENGTH < trailingCp.length := by decide
  have hm : (sentMatch trailingCp).1 ≠ [] := by
    have hb : (sentMatch trailingCp).1.isEmpty = false := by rfl
    intro e
    rw [e] at hb
    simp at hb
  have ht : (sentMatch trailingCp).2 ≠ [] := by
    have hb : (sentMatch trailingCp).2.isEmpty = false := by rfl
    intro e
    rw [e] at hb
    simp at hb
  exact (chunkPageText_drops_trailing trailingCp 1 0 hfix hlong hm).2 ht

/-! ## C5: adjacency invariants for chunk text -/

/-- No two adjacent characters are both whitespace (in particular,
no double-space run). -/
def noWsPair : List Char → Prop
  | a :: b :: rest => ¬(isWs a = true ∧ isWs b = true) ∧ noWsPair (b :: rest)
  | _ => True

theorem noWsPair_nil : noWsPair [] := trivial

theorem noWsPair_singleton (a : Char) : noWsPair [a] := trivial

theorem noWsPair_cons_of_not {a : Char} {t : List Char}
    (ha : isWs a = false) (h : noWsPair t) : noWsPair (a :: t) := by
  cases t with
  | nil => trivial
  | cons b r =>
    exact ⟨fun hp => by rw [ha] at hp; exact absurd hp.1 (by simp), h⟩

theorem noWsPair_cons_of_snd {a b : Char} {t : List Char}
    (hb : isWs b = false) (h : noWsPair (b :: t)) : noWsPair (a :: b :: t) :=
  ⟨fun hp => by rw [hb] at hp; exact absurd hp.2 (by simp), h⟩

theorem noWsPair_tail {a : Char} {t : List Char} (h : noWsPair (a :: t)) :
    noWsPair t := by
  cases t with
  | nil => trivial
  | cons b r => exact h.2

theorem noWsPair_append_right : ∀ {x y : List Char}, noWsPair (x ++ y) → noWsPair y := by
  intro x
  induction x with
  | nil => intro y h; exact h
  | cons a x ih => intro y h; exact ih (noWsPair_tail h)

theorem noWsPair_append_left : ∀ (x y : List Char), noWsPair (x ++ y) → noWsPair x := by
  intro x
  induction x with
  | nil => intro y _; trivial
  | cons a x ih =>
    intro y h
    cases x with
    | nil => trivial
    | cons b x' =>
      exact ⟨h.1, ih y h.2⟩

theorem lastNotWs_append_right {x y : List Char} (hy : y ≠ []) (h : lastNotWs y) :
    lastNotWs (x ++ y) := by
  intro a ha
  rw [List.getLast?_append, List.getLast?_eq_getLast y hy] at ha
  exact h a ((List.getLast?_eq_getLast y hy).trans ha)

theorem noWsPair_join : ∀ (x : List Char) {y : List Char},
    noWsPair x → noWsPair y → lastNotWs x → noWsPair (x ++ y) := by
  intro x
  induction x with
  | nil => intro y _ hy _; exact hy
  | cons a x ih =>
    intro y hx hy hl
    cases x with
    | nil =>
      exact noWsPair_cons_of_not (hl a (by rfl)) hy
    | cons b x' =>
      refine ⟨hx.1, ih hx.2 hy ?_⟩
      intro g hg
      exact hl g (by rw [List.getLast?_cons_cons]; exact hg)

theorem noWsPair_collapseWs : ∀ (l : List Char), noWsPair (collapseWs l) := by
  intro l
  induction l with
  | nil => trivial
  | cons a t ih =>
    cases t with
    | nil =>
      simp only [collapseWs]
      split
      · exact noWsPair_singleton _
      · exact noWsPair_singleton _
    | cons b r =>
      simp only [collapseWs]
      by_cases hwa : isWs a = true
      · rw [if_pos hwa]
        by_cases hwb : isWs b = true
        · rw [if_pos hwb]
          exact ih
        · rw [if_neg hwb]
          obtain ⟨t', ht'⟩ : ∃ t', collapseWs (b :: r) = b :: t' := by
            cases r with
            | nil =>
              refine ⟨[], ?_⟩
              simp only [collapseWs]
              rw [if_neg hwb]
            | cons c r' =>
              refine ⟨collapseWs (c :: r'), ?_⟩
              simp only [collapseWs]
              rw [if_neg hwb]
          rw [ht']
          rw [ht'] at ih
          exact noWsPair_cons_of_snd (by simpa using hwb) ih
      · rw [if_neg hwa]
        exact noWsPair_cons_of_not (by simpa using hwa) ih

theorem trimWs_decomp (l : List Char) :
    ∃ pre post : List Char, l = pre ++ trimWs l ++ post := by
  rcases List.dropWhile_suffix (l := l) isWs with ⟨pre, hpre⟩
  rcases List.dropWhile_suffix (l := (l.dropWhile isWs).reverse) isWs with ⟨pre2, hpre2⟩
  refine ⟨pre, pre2.reverse, ?_⟩
  have h1 : l.dropWhile isWs = trimWs l ++ pre2.reverse := by
    unfold trimWs
    have := congrArg List.reverse hpre2
    rw [List.reverse_append, List.reverse_reverse] at this
    exact this.symm
  rw [List.append_assoc, ← h1, hpre]

theorem noWsPair_trimWs {l : List Char} (h : noWsPair l) : noWsPair (trimWs l) := by
  obtain ⟨pre, post, hd⟩ := trimWs_decomp l
  rw [hd, List.append_assoc] at h
  exact noWsPair_append_left _ _ (noWsPair_append_right h)

theorem cleanPara_headNotWs (para : List Char) : headNotWs (cleanPara para) :=
  trimWs_headNotWs (collapseWs para)

theorem cleanPara_lastNotWs (para : List Char) : lastNotWs (cleanPara para) :=
  trimWs_lastNotWs (collapseWs para)

theorem noWsPair_cleanPara (para : List Char) : noWsPair (cleanPara para) :=
  noWsPair_trimWs (noWsPair_collapseWs para)

theorem trimWs_eq_dropWhile_of_lastNotWs {l : List Char} (h : lastNotWs l) :
    trimWs l = l.dropWhile isWs := by
  cases hD : l.dropWhile isWs with
  | nil =>
    unfold trimWs
    rw [hD]
    rfl
  | cons d D' =>
    rcases List.dropWhile_suffix (l := l) isWs with ⟨pre, hpre⟩
    rw [hD] at hpre
    have hlast : (d :: D').getLast? = l.getLast? := by
      rw [← hpre, List.getLast?_append, List.getLast?_eq_getLast (d :: D') (by simp)]
      rfl
    have hln : lastNotWs (d :: D') := by
      intro a ha
      exact h a (by rw [← hlast]; exact ha)
    unfold trimWs
    rw [hD]
    rw [dropWhile_eq_self_of_headNotWs (l := (d :: D').reverse) ?hh]
    · exact List.reverse_reverse _
    · intro a ha
      rw [List.head?_reverse] at ha
      exact hln a ha

theorem trimWs_ne_nil_of {l : List Char} (hne : l ≠ []) (h : lastNotWs l) :
    trimWs l ≠ [] := by
  rw [trimWs_eq_dropWhile_of_lastNotWs h]
  intro e
  have hall := List.dropWhile_eq_nil_iff.mp e
  have hg : l.getLast? = some (l.getLast hne) := List.getLast?_eq_getLast l hne
  have := h (l.getLast hne) hg
  rw [hall (l.getLast hne) (List.getLast_mem hne)] at this
  cases this

/-- Properties of every sentence fed to the accumulation loop. -/
def SentProp (m : List Char) : Prop :=
  m ≠ [] ∧ lastNotWs m ∧ noWsPair m

theorem punct_not_ws {c : Char} (h : isPunct c = true) : isWs c = false := by
  unfold isPunct at h
  simp only [Bool.or_eq_true, decide_eq_true_eq] at h
  rcases h with (h | h) | h <;> subst h <;> rfl

theorem lastNotWs_append_punct {A B : List Char} (hB : B ≠ [])
    (hp : ∀ c ∈ B, isPunct c = true) : lastNotWs (A ++ B) := by
  intro a ha
  rw [List.getLast?_append, List.getLast?_eq_getLast B hB] at ha
  have hg : B.getLast hB = a := by
    simpa [Option.or] using ha
  exact punct_not_ws (hp a (hg ▸ List.getLast_mem hB))

theorem fmGo_sentProps :
    ∀ (rest curA curB pending : List Char) (emitted : List (List Char)),
      (∀ m ∈ emitted, SentProp m) →
      noWsPair ((curA ++ curB) ++ rest) →
      (∀ c ∈ curB, isPunct c = true) →
      ∀ m ∈ (fmGo curA curB pending emitted rest).1, SentProp m := by
  intro rest
  induction rest with
  | nil =>
    intro curA curB pending emitted hem hpair hpunct m hm
    simp only [fmGo] at hm
    by_cases hb : curB.isEmpty = true
    · rw [if_pos hb] at hm
      exact hem m hm
    · rw [if_neg hb] at hm
      have hBne : curB ≠ [] := by simpa [List.isEmpty_iff] using hb
      rcases List.mem_append.mp hm with hm | hm
      · exact hem m hm
      · simp at hm
        subst hm
        refine ⟨?_, lastNotWs_append_punct hBne hpunct, ?_⟩
        · intro e
          exact hBne (List.append_eq_nil.mp e).2
        · rw [List.append_nil] at hpair
          exact hpair
  | cons c rest ih =>
    intro curA curB pending emitted hem hpair hpunct m hm
    simp only [fmGo] at hm
    by_cases hb : curB.isEmpty = true
    · rw [if_pos hb] at hm
      have hb' : curB = [] := List.isEmpty_iff.mp hb
      subst hb'
      rw [List.append_nil] at hpair
      by_cases hpu : isPunct c = true
      · rw [if_pos hpu] at hm
        by_cases ha : curA.isEmpty = true
        · rw [if_pos ha] at hm
          have ha' : curA = [] := List.isEmpty_iff.mp ha
          subst ha'
          refine ih [] [] (pending ++ [c]) emitted hem ?_ (by intro d hd; cases hd) m hm
          simp only [List.nil_append] at hpair ⊢
          exact noWsPair_tail hpair
        · rw [if_neg ha] at hm
          refine ih curA [c] (pending ++ [c]) emitted hem ?_ ?_ m hm
          · rw [List.append_assoc, List.singleton_append]
            exact hpair
          · intro d hd
            simp at hd
            subst hd
            exact hpu
      · rw [if_neg hpu] at hm
        refine ih (curA ++ [c]) [] (pending ++ [c]) emitted hem ?_
          (by intro d hd; cases hd) m hm
        rw [List.append_nil, List.append_assoc, List.singleton_append]
        exact hpair
    · rw [if_neg hb] at hm
      have hBne : curB ≠ [] := by simpa [List.isEmpty_iff] using hb
      by_cases hpu : isPunct c = true
      · rw [if_pos hpu] at hm
        refine ih curA (curB ++ [c]) (pending ++ [c]) emitted hem ?_ ?_ m hm
        · have e : (curA ++ (curB ++ [c])) ++ rest = (curA ++ curB) ++ (c :: rest) := by
            simp
          rw [e]
          exact hpair
        · intro d hd
          rcases List.mem_append.mp hd with hd | hd
          · exact hpunct d hd
          · simp at hd
            subst hd
            exact hpu
      · rw [if_neg hpu] at hm
        by_cases hw : isWs c = true
        · rw [if_pos hw] at hm
          refine ih [c] [] [c] (emitted ++ [curA ++ curB]) ?_ ?_
            (by intro d hd; cases hd) m hm
          · intro m' hm'
            rcases List.mem_append.mp hm' with hm' | hm'
            · exact hem m' hm'
            · simp at hm'
              subst hm'
              refine ⟨?_, lastNotWs_append_punct hBne hpunct, ?_⟩
              · intro e
                exact hBne (List.append_eq_nil.mp e).2
              · exact noWsPair_append_left _ _ hpair
          · simp only [List.append_nil, List.singleton_append]
            have := noWsPair_append_right (x := curA ++ curB) (y := c :: rest) hpair
            exact this
        · rw [if_neg hw] at hm
          refine ih [c] [] (pending ++ [c]) emitted hem ?_
            (by intro d hd; cases hd) m hm
          simp only [List.append_nil, List.singleton_append]
          exact noWsPair_append_right (x := curA ++ curB) (y := c :: rest) hpair

theorem sentMatch_props {l : List Char} (h : noWsPair l) :
    ∀ m ∈ (sentMatch l).1, SentProp m := by
  refine fmGo_sentProps l [] [] [] [] (by intro m hm; cases hm) ?_
    (by intro d hd; cases hd)
  simpa using h

theorem sentencesOf_props {para : List Char} (hne : cleanPara para ≠ []) :
    ∀ m ∈ sentencesOf (cleanPara para), SentProp m := by
  intro m hm
  unfold sentencesOf at hm
  cases hms : (sentMatch (cleanPara para)).1 with
  | nil =>
    rw [hms] at hm
    simp at hm
    subst hm
    exact ⟨hne, cleanPara_lastNotWs para, noWsPair_cleanPara para⟩
  | cons a t =>
    rw [hms] at hm
    exact sentMatch_props (noWsPair_cleanPara para) m (by rw [hms]; exact hm)

/-- Invariant of `currentSubChunk` during the accumulation loop. -/
def CurProp (sents : List (List Char)) (cur : List Char) : Prop :=
  cur = [] ∨
    (lastNotWs cur ∧ noWsPair cur ∧
      (cur.length ≤ MAX_CHUNK_LENGTH ∨ cur ∈ sents))

/-- The C5 chunk-text contract: non-empty, trimmed, no adjacent
whitespace, and within the length budget unless derived from a single
over-length sentence. -/
def ChunkOk (text : List Char) (c : TextChunk) : Prop :=
  c.text ≠ [] ∧ headNotWs c.text ∧ lastNotWs c.text ∧ noWsPair c.text ∧
    (c.text.length ≤ MAX_CHUNK_LENGTH ∨
      ∃ para, para ∈ splitParas text ∧
        ∃ s, s ∈ sentencesOf (cleanPara para) ∧
          MAX_CHUNK_LENGTH < s.length ∧ c.text = trimWs s)

theorem push_chunk_ok {text para cur : List Char} (p id0 : Nat)
    (hpara : para ∈ splitParas text)
    (hl : lastNotWs cur) (hn : noWsPair cur)
    (hd : cur.length ≤ MAX_CHUNK_LENGTH ∨ cur ∈ sentencesOf (cleanPara para))
    (hne : cur ≠ []) :
    ChunkOk text ⟨id0, trimWs cur, p⟩ := by
  refine ⟨trimWs_ne_nil_of hne hl, trimWs_headNotWs cur, trimWs_lastNotWs cur,
    noWsPair_trimWs hn, ?_⟩
  by_cases hle : cur.length ≤ MAX_CHUNK_LENGTH
  · left
    exact Nat.le_trans (trimWs_length_le cur) hle
  · right
    rcases hd with hd | hd
    · exact absurd hd hle
    · exact ⟨para, hpara, cur, hd, by omega, rfl⟩

theorem subStep_ok {text para : List Char} (p : Nat) (sent : List Char)
    (hpara : para ∈ splitParas text)
    (hsp : SentProp sent) (hsm : sent ∈ sentencesOf (cleanPara para))
    (st : List TextChunk × List Char × Nat)
    (hch : ∀ c ∈ st.1, ChunkOk text c)
    (hcur : CurProp (sentencesOf (cleanPara para)) st.2.1) :
    (∀ c ∈ (subStep p st sent).1, ChunkOk text c) ∧
      CurProp (sentencesOf (cleanPara para)) (subStep p st sent).2.1 := by
  unfold subStep
  split
  · split
    · dsimp only
      exact ⟨hch, Or.inr ⟨hsp.2.1, hsp.2.2, Or.inr hsm⟩⟩
    · dsimp only
      rename_i hMAX hcne
      have hcne' : st.2.1 ≠ [] := by simpa [List.isEmpty_iff] using hcne
      obtain ⟨hl, hn, hd⟩ := hcur.resolve_left hcne'
      refine ⟨?_, Or.inr ⟨hsp.2.1, hsp.2.2, Or.inr hsm⟩⟩
      intro c hc
      rcases List.mem_append.mp hc with hc | hc
      · exact hch c hc
      · simp at hc
        subst hc
        exact push_chunk_ok p st.2.2 hpara hl hn hd hcne'
  · dsimp only
    rename_i hMAX
    refine ⟨hch, Or.inr ⟨?_, ?_, Or.inl (by omega)⟩⟩
    · exact lastNotWs_append_right hsp.1 hsp.2.1
    · rcases hcur with he | ⟨hl, hn, _⟩
      · rw [he, List.nil_append]
        exact hsp.2.2
      · exact noWsPair_join st.2.1 hn hsp.2.2 hl

theorem foldl_subStep_ok {text para : List Char} (p : Nat)
    (hpara : para ∈ splitParas text) :
    ∀ (sents : List (List Char)),
      (∀ x ∈ sents, SentProp x ∧ x ∈ sentencesOf (cleanPara para)) →
      ∀ st : List TextChunk × List Char × Nat,
        (∀ c ∈ st.1, ChunkOk text c) →
        CurProp (sentencesOf (cleanPara para)) st.2.1 →
        (∀ c ∈ (sents.foldl (subStep p) st).1, ChunkOk text c) ∧
          CurProp (sentencesOf (cleanPara para))
            (sents.foldl (subStep p) st).2.1 := by
  intro sents
  induction sents with
  | nil => intro _ st h1 h2; exact ⟨h1, h2⟩
  | cons a t ih =>
    intro hmem st h1 h2
    rw [List.foldl_cons]
    obtain ⟨g1, g2⟩ := subStep_ok p a hpara (hmem a (by simp)).1
      (hmem a (by simp)).2 st h1 h2
    exact ih (fun x hx => hmem x (by simp [hx])) _ g1 g2

theorem chunkPara_ok (text : List Char) (p : Nat) (st : List TextChunk × Nat)
    (para : List Char) (hpara : para ∈ splitParas text)
    (hch : ∀ c ∈ st.1, ChunkOk text c) :
    ∀ c ∈ (chunkPara p st para).1, ChunkOk text c := by
  simp only [chunkPara]
  split
  · exact hch
  · rename_i hne
    have hne' : cleanPara para ≠ [] := by simpa [List.isEmpty_iff] using hne
    split
    · rename_i hle
      dsimp only
      intro c hc
      rcases List.mem_append.mp hc with hc | hc
      · exact hch c hc
      · simp at hc
        subst hc
        exact ⟨hne', cleanPara_headNotWs para, cleanPara_lastNotWs para,
          noWsPair_cleanPara para, Or.inl hle⟩
    · have hfold := foldl_subStep_ok p hpara (sentencesOf (cleanPara para))
        (fun x hx => ⟨sentencesOf_props hne' x hx, hx⟩)
        (st.1, [], st.2) hch (Or.inl rfl)
      split
      · exact hfold.1
      · rename_i hcne
        dsimp only
        intro c hc
        rcases List.mem_append.mp hc with hc | hc
        · exact hfold.1 c hc
        · simp at hc
          subst hc
          have hcne' :
              (List.foldl (subStep p) (st.1, [], st.2)
                (sentencesOf (cleanPara para))).2.1 ≠ [] := by
            simpa [List.isEmpty_iff] using hcne
          obtain ⟨hl, hn, hd⟩ := hfold.2.resolve_left hcne'
          exact push_chunk_ok p _ hpara hl hn hd hcne'

theorem foldl_chunkPara_ok (text : List Char) (p : Nat) :
    ∀ (paras : List (List Char)), (∀ x ∈ paras, x ∈ splitParas text) →
      ∀ st : List TextChunk × Nat, (∀ c ∈ st.1, ChunkOk text c) →
      ∀ c ∈ (paras.foldl (chunkPara p) st).1, ChunkOk text c := by
  intro paras
  induction paras with
  | nil => intro _ st h; exact h
  | cons a t ih =>
    intro hmem st h
    rw [List.foldl_cons]
    exact ih (fun x hx => hmem x (by simp [hx])) _
      (chunkPara_ok text p st a (hmem a (by simp)) h)

/-- C5: every chunk the chunker emits has non-empty text with no
leading or trailing whitespace and no two adjacent whitespace
characters (hence no double-space run), and its length is at most `L`
unless the chunk is the trim of a single sentence longer than `L`. -/
theorem chunkPageText_text_invariants (text : List Char) (p startId : Nat) :
    ∀ c ∈ chunkPageText text p startId,
      c.text ≠ [] ∧ headNotWs c.text ∧ lastNotWs c.text ∧ noWsPair c.text ∧
        (c.text.length ≤ MAX_CHUNK_LENGTH ∨
          ∃ para, para ∈ splitParas text ∧
            ∃ s, s ∈ sentencesOf (cleanPara para) ∧
              MAX_CHUNK_LENGTH < s.length ∧ c.text = trimWs s) := by
  intro c hc
  exact foldl_chunkPara_ok text p (splitParas text) (fun x hx => hx)
    ([], startId) (by intro d hd; cases hd) c hc

/-- Witness for C5 on a concrete chunk (note the collapsed double
space). -/
theorem chunkPageText_text_invariants_witness :
    (⟨5, "a b".toList, 3⟩ : TextChunk).text ≠ [] ∧
      headNotWs (⟨5, "a b".toList, 3⟩ : TextChunk).text ∧
      lastNotWs (⟨5, "a b".toList, 3⟩ : TextChunk).text ∧
      noWsPair (⟨5, "a b".toList, 3⟩ : TextChunk).text ∧
      ((⟨5, "a b".toList, 3⟩ : TextChunk).text.length ≤ MAX_CHUNK_LENGTH ∨
        ∃ para, para ∈ splitParas ("a  b".toList) ∧
          ∃ s, s ∈ sentencesOf (cleanPara para) ∧
            MAX_CHUNK_LENGTH < s.length ∧
            (⟨5, "a b".toList, 3⟩ : TextChunk).text = trimWs s) :=
  chunkPageText_text_invariants ("a  b".toList) 3 5 ⟨5, "a b".toList, 3⟩
    (by decide)

/-! ## C2: per-node isolation in processOutline -/

mutual

theorem stripNode_processNode (pdf : Pdf) (n : RawNode) :
    stripNode (processNode pdf n) = rawShapeNode n := by
  cases n with
  | mk t d items =>
    simp only [processNode, stripNode, rawShapeNode]
    rw [stripNodes_processNodes pdf items]

theorem stripNodes_processNodes (pdf : Pdf) (ns : List RawNode) :
    stripNodes (processNodes pdf ns) = rawShapeNodes ns := by
  cases ns with
  | nil => rfl
  | cons n rest =>
    simp only [processNodes, stripNodes, rawShapeNodes]
    rw [stripNode_processNode pdf n, stripNodes_processNodes pdf rest]

end

mutual

theorem pages_processNode (pdf : Pdf) (n : RawNode) :
    (flattenONode (processNode pdf n)).map OutlineNode.pageNumberOf =
      (flattenNode n).map (fun m => resolveDest pdf m.destOf) := by
  cases n with
  | mk t d items =>
    simp only [processNode, flattenONode, flattenNode, List.map_cons]
    rw [pages_processNodes pdf items]
    rfl

theorem pages_processNodes (pdf : Pdf) (ns : List RawNode) :
    (flattenONodes (processNodes pdf ns)).map OutlineNode.pageNumberOf =
      (flattenNodes ns).map (fun m => resolveDest pdf m.destOf) := by
  cases ns with
  | nil => rfl
  | cons n rest =>
    simp only [processNodes, flattenONodes, flattenNodes, List.map_append]
    rw [pages_processNode pdf n, pages_processNodes pdf rest]

end

/-- C2: if, relative to an all-succeeding run (`pdfA`), exactly one
node's destination lookup throws under `pdfB` (the unique node whose
`dest` is `d0`) while every other node's lookup behaves identically,
then the resolved tree keeps exactly the same shape (node count,
nesting, sibling order, titles), every other node keeps its page
number, and only the failing node's page number becomes `null`; no
failure escapes its node. -/
theorem processOutline_isolation (pdfA pdfB : Pdf) (ns : List RawNode)
    (d0 : JsDest)
    (hcount : ((flattenNodes ns).filter (fun n => n.destOf == d0)).length = 1)
    (hA : ∀ n ∈ flattenNodes ns, tryResolve pdfA n.destOf ≠ Except.error ())
    (hB : ∀ n ∈ flattenNodes ns, n.destOf ≠ d0 →
      tryResolve pdfB n.destOf = tryResolve pdfA n.destOf)
    (hfail : tryResolve pdfB d0 = Except.error ()) :
    stripNodes (processOutline pdfB ns) = stripNodes (processOutline pdfA ns) ∧
      (flattenONodes (processOutline pdfB ns)).map OutlineNode.pageNumberOf =
        (flattenNodes ns).map (fun n =>
          if n.destOf = d0 then none else resolveDest pdfA n.destOf) := by
  constructor
  · unfold processOutline
    rw [stripNodes_processNodes pdfA ns, stripNodes_processNodes pdfB ns]
  · unfold processOutline
    rw [pages_processNodes pdfB ns]
    apply List.map_congr_left
    intro n hn
    by_cases hd : n.destOf = d0
    · rw [if_pos hd, hd]
      unfold resolveDest
      rw [hfail]
    · rw [if_neg hd]
      unfold resolveDest
      rw [hB n hn hd]

deriving instance DecidableEq for Except

/-- The all-succeeding oracle used by the C2 witness. -/
def pdfOkW : Pdf :=
  ⟨fun _ => Except.ok (JsDest.jsArr [5]),
   fun r => match r with
     | some k => Except.ok k
     | none => Except.error ()⟩

/-- The oracle whose named-destination lookup throws, used by the C2
witness. -/
def pdfBadW : Pdf :=
  ⟨fun _ => Except.error (),
   fun r => match r with
     | some k => Except.ok k
     | none => Except.error ()⟩

/-- The raw outline forest of the C2 witness: a parent with a named
destination (the failing one), its child with an array destination, and
a sibling with an array destination. -/
def nodesW : List RawNode :=
  [RawNode.mk ("One".toList) (JsDest.jsStr ("x".toList))
      [RawNode.mk ("Child".toList) (JsDest.jsArr [7]) []],
   RawNode.mk ("Two".toList) (JsDest.jsArr [3]) []]

/-- Witness for C2: the failing parent resolves to `null` while its
child and its sibling keep their page numbers, and the shape is
unchanged. -/
theorem processOutline_isolation_witness :
    stripNodes (processOutline pdfBadW nodesW) =
        stripNodes (processOutline pdfOkW nodesW) ∧
      (flattenONodes (processOutline pdfBadW nodesW)).map
          OutlineNode.pageNumberOf = [none, some 8, some 4] := by
  have h := processOutline_isolation pdfOkW pdfBadW nodesW
    (JsDest.jsStr ("x".toList))
    (by decide) (by decide) (by decide) (by rfl)
  exact ⟨h.1, h.2.trans (by rfl)⟩

end Reader
